import Mathlib

/-!
Verification of the `tasker` package (tasker.go, stack.go): a task scheduler with
dependency constraints, Tarjan cycle detection, and bounded parallelism.

The sequential parts of the code (registration, validation, the run/consumed flag
logic) are embedded directly as Lean functions.  Go maps iterate in nondeterministic
order, so every function that ranges over a map takes the iteration order as an
explicit parameter.  Go `panic` sites are modelled as `Except.error`.  The concurrent
executor (`runTask` goroutines, per-task mutexes, the semaphore channel) is modelled
further below as a small-step transition system over which the concurrency claims
are proved as invariants of all reachable states.
-/

/-- Result of a Go task body: `none` = nil error (success), `some s` = an error with
message `s`.  Task bodies are opaque to the scheduler; the embedding records only the
error value a body returns when invoked. -/
abbrev TaskRes := Option String

/-- Embeds `task_info` from tasker.go: per-task runtime state.  The `task` field holds
the (opaque) result the body returns when invoked.  The per-task mutex is not
represented here; it appears in the concurrent executor model below. -/
structure task_info where
  task : TaskRes
  done : Bool
  err : TaskRes
  index : Int
  lowlink : Int
  on_stack : Bool
  deriving DecidableEq, Repr

/-- Embeds `new_task_info`. -/
def new_task_info (task : TaskRes) : task_info :=
  { task := task, done := false, err := none, index := -1, lowlink := -1,
    on_stack := false }

/-- Embeds `string_stack` (stack.go): a slice plus its element count; the top of the
stack is the end of the slice. -/
structure string_stack where
  stack : List String
  count : Nat
  deriving DecidableEq, Repr

/-- Embeds `new_string_stack`. -/
def new_string_stack : string_stack := ⟨[], 0⟩

/-- Embeds `string_stack.push`. -/
def string_stack.push (ss : string_stack) (e : String) : string_stack :=
  ⟨ss.stack ++ [e], ss.count + 1⟩

/-- Embeds `string_stack.pop`.  Go returns `("", errors.New "Stack is empty")` on an
empty stack; the embedding returns `none` in that case. -/
def string_stack.pop (ss : string_stack) : Option (String × string_stack) :=
  if ss.count = 0 then none
  else
    match ss.stack.get? (ss.count - 1) with
    | none => none
    | some e => some (e, ⟨ss.stack.take (ss.count - 1), ss.count - 1⟩)

/-- Embeds the `Tasker` struct.  The two maps are association lists in registration
order (their key sets coincide, as in Go).  `n` is the concurrency cap passed to
`NewTasker` (−1 = unbounded); the semaphore built from it matters only to the
concurrent executor model below. -/
structure Tasker where
  tis : List (String × task_info)
  dep_graph : List (String × List String)
  n : Int
  index : Int
  stack : string_stack
  cycles : List (List String)
  was_run : Bool
  deriving DecidableEq, Repr

/-- Association-list lookup standing in for `tr.tis[name]`. -/
def lookup_ti (tr : Tasker) (name : String) : Option task_info :=
  (tr.tis.find? (fun p => p.1 == name)).map Prod.snd

/-- Pointwise update of the entry `tr.tis[name]` (Go mutates through the stored
pointer). -/
def update_ti (tr : Tasker) (name : String) (f : task_info → task_info) : Tasker :=
  { tr with tis := tr.tis.map (fun p => if p.1 == name then (p.1, f p.2) else p) }

/-- Association-list lookup standing in for `tr.dep_graph[name]` (a missing key reads
as the empty list, as a nil slice does in Go). -/
def lookup_deps (tr : Tasker) (name : String) : List String :=
  ((tr.dep_graph.find? (fun p => p.1 == name)).map Prod.snd).getD []

/-- Embeds `NewTasker`: `n` must be positive or −1; otherwise Go returns the error
`n must be positive or -1`. -/
def NewTasker (n : Int) : Option Tasker :=
  if n < -1 ∨ n = 0 then none
  else some { tis := [], dep_graph := [], n := n, index := -1,
              stack := new_string_stack, cycles := [], was_run := false }

/-- Embeds `Add`.  The three failure branches carry the Go error messages (the
duplicate-name message keeps the offending name appended, as `fmt.Errorf` does). -/
def Tasker.Add (tr : Tasker) (name : String) (deps : List String) (task : TaskRes) :
    Except String Tasker :=
  if name = "" then .error "name is empty"
  else if (lookup_ti tr name).isSome then .error ("task already added: " ++ name)
  else if deps.any (fun dep => name == dep) then
    .error "task must not add itself as a dependency"
  else .ok { tr with tis := tr.tis ++ [(name, new_task_info task)],
                     dep_graph := tr.dep_graph ++ [(name, deps)] }

/-- The two `panic` sites inside `find_cycles`: the assertion that an on-stack
vertex has equal index and lowlink (Go message: `w index and lowlink differ, how!?`),
and a pop from an empty stack while collecting an SCC. -/
inductive go_panic where
  | index_lowlink_differ
  | empty_stack
  deriving DecidableEq, Repr

/-- Embeds the SCC-collection loop at the end of `find_cycles` (`for { w := pop ... }`):
pops the stack until `v` is popped, appending each popped name to the component in pop
order.  Returns `none` when the stack runs out before `v` is found (the Go code panics
on the pop error there).  Clearing the `on_stack` flags of the popped names is done by
the caller over the returned component, which visits the same names the loop does.
`fuel` bounds the loop (each iteration pops one element, so one more than the count of the stack suffices; the caller passes that, making the fuel branch unreachable: the pop
of an empty stack fails first). -/
def pop_scc (v : String) : Nat → string_stack → List String →
    Option (List String × string_stack)
  | 0, _, _ => none
  | fuel+1, ss, acc =>
    match ss.pop with
    | none => none
    | some (w, ss') =>
      if w = v then some (acc ++ [w], ss')
      else pop_scc v fuel ss' (acc ++ [w])

/-- The dependency-loop body of the recursive branch of `find_cycles`, for one edge
`v → w` (tasker.go lines 196–232): recurse into unvisited `w` and fold the lowlink of
`w` into that of `v`, or, for an on-stack `w`, assert `index w = lowlink w` (panicking
when the assertion fails) and fold `index w` into the lowlink of `v`.  `recur` is the recursive
call. -/
def sc_edge (recur : Tasker → String → Except go_panic Tasker) (v : String)
    (t : Tasker) (w : String) : Except go_panic Tasker :=
  match lookup_ti t w with
  | none => Except.ok t          -- unreachable after the missing-dependency check
  | some w_ti =>
    if w_ti.index = -1 then
      -- w has not yet been visited.
      (recur t w).map (fun t2 =>
        match lookup_ti t2 w, lookup_ti t2 v with
        | some wti, some vti =>
          if wti.lowlink < vti.lowlink then
            update_ti t2 v (fun ti => { ti with lowlink := wti.lowlink })
          else t2
        | _, _ => t2)
    else if w_ti.on_stack then
      if w_ti.index ≠ w_ti.lowlink then .error .index_lowlink_differ
      else
        match lookup_ti t v with
        | some vti =>
          .ok (if w_ti.index < vti.lowlink then
                 update_ti t v (fun ti => { ti with lowlink := w_ti.index })
               else t)
        | none => .ok t
    else .ok t

/-- The SCC-closing tail of the recursive branch of `find_cycles` (tasker.go lines
234–255): when `lowlink v = index v`, pop the component (`sc_close`), clear the
`on_stack` flags of its members (`clear_on_stack`, which visits the popped names in
pop order, as the Go loop clears them per pop), and record the component when it has
more than one vertex (`record_scc`). -/
def clear_on_stack (t : Tasker) (scc : List String) : Tasker :=
  scc.foldl (fun t w => update_ti t w (fun ti => { ti with on_stack := false })) t

def record_scc (tr3 : Tasker) (scc : List String) (rest : string_stack) : Tasker :=
  if scc.length > 1 then
    { clear_on_stack { tr3 with stack := rest } scc with
      cycles := (clear_on_stack { tr3 with stack := rest } scc).cycles ++ [scc] }
  else clear_on_stack { tr3 with stack := rest } scc

def sc_close (v : String) (tr3 : Tasker) : Except go_panic Tasker :=
  match lookup_ti tr3 v with
  | none => .ok tr3
  | some vti =>
    if vti.lowlink = vti.index then
      match pop_scc v (tr3.stack.count + 1) tr3.stack [] with
      | none => .error .empty_stack
      | some (scc, rest) => .ok (record_scc tr3 scc rest)
    else .ok tr3

/-- Embeds the recursive branch of `find_cycles` (Tarjan strongconnect at `v`):
visit `v`, run the dependency loop, close the component.  `fuel` bounds the
recursion depth; every recursive call targets an unvisited vertex, so one more than
the number of tasks always suffices (the callers below pass that), and the
fuel-exhaustion branch is unreachable at every call site used in a theorem.
`sc_visit` performs the visit step: set index and lowlink of `v` to the global
counter, bump the counter, push `v` and mark it on-stack (lines 196–201). -/
def sc_visit (tr : Tasker) (v : String) : Tasker :=
  { update_ti tr v (fun ti =>
      { ti with index := tr.index, lowlink := tr.index, on_stack := true }) with
    index := tr.index + 1, stack := tr.stack.push v }

def strongconnect : Nat → Tasker → String → Except go_panic Tasker
  | 0, tr, _ => .ok tr
  | fuel+1, tr, v =>
    -- Visit v (sc_visit), recursively consider its dependencies, close the component.
    match (lookup_deps (sc_visit tr v) v).foldlM
        (sc_edge (strongconnect fuel) v) (sc_visit tr v) with
    | .error p => .error p
    | .ok tr3 => sc_close v tr3

/-- Embeds `find_cycles("")`: resets the algorithm state of every task, then visits
every unvisited vertex.  The Go code ranges over the `dep_graph` map, whose iteration
order is nondeterministic; `order` makes that order explicit.  `reset_tarjan` is the
initialisation block: global counter to 0, fresh stack, empty cycle list, and every
per-task index/lowlink/on-stack reset. -/
def reset_tarjan (tr : Tasker) : Tasker :=
  { tr with
    index := 0
    stack := new_string_stack
    cycles := []
    tis := tr.tis.map (fun p =>
      (p.1, { p.2 with index := -1, lowlink := -1, on_stack := false })) }

def find_cycles (tr : Tasker) (order : List String) : Except go_panic Tasker :=
  order.foldlM (fun t v =>
      match lookup_ti t v with
      | none => .ok t
      | some ti =>
        if ti.index = -1 then strongconnect (t.tis.length + 1) t v else .ok t)
    (reset_tarjan tr)

/-- The closed set of error values `Run` can return, by kind. -/
inductive RunErr where
  | alreadyRun
  | depNotFound (v w : String)
  | cycle (cycles : List (List String))
  | notFound (name : String)
  | taskFailed (msg : String)
  deriving DecidableEq, Repr

/-- Embeds `CycleError.Error`: `cycle`/`cycles` pluralisation, components joined by
`, `, names within a component joined by ` -> `. -/
def cycle_error_string (ce : List (List String)) : String :=
  "tasker: " ++ (if ce.length > 1 then "cycles" else "cycle") ++ " detected: "
    ++ String.intercalate ", " (ce.map (fun c => String.intercalate " -> " c))

/-- The display strings of the errors `Run` returns (`Error()` methods and the
`errors.New` / `fmt.Errorf` messages in tasker.go). -/
def RunErr.message : RunErr → String
  | .alreadyRun => "tasker: already run"
  | .depNotFound v w => "tasker: " ++ w ++ " not found, required by " ++ v
  | .cycle ccs => cycle_error_string ccs
  | .notFound name => "tasker: task not found: " ++ name
  | .taskFailed msg => msg

/-- Embeds `verify`: the missing-dependency check over `dep_graph` (Go iterates the
map and returns the first violation it meets; here registration order is used, which
only affects *which* missing edge is reported), then the cycle check.  A `go_panic`
inside `find_cycles` escapes as `Except.error`. -/
def verify (tr : Tasker) (order : List String) :
    Except go_panic (Option RunErr × Tasker) :=
  match tr.dep_graph.findSome? (fun p =>
      p.2.findSome? (fun dep =>
        if (lookup_ti tr dep).isNone then some (RunErr.depNotFound p.1 dep)
        else none)) with
  | some e => .ok (some e, tr)
  | none =>
    match find_cycles tr order with
    | .error p => .error p
    | .ok tr' =>
      if tr'.cycles.length > 0 then .ok (some (.cycle tr'.cycles), tr')
      else .ok (none, tr')

/-- Sequential embedding of `runTask`/its dependency loop (`run_dep_step`): the
concurrent code dispatches the dependencies as goroutines and receives their results
in completion order; this embedding runs them in list order, realising one of the
schedules (the claims proved with it concern the flag and error bookkeeping of `Run`,
which are schedule-independent; the schedule-dependent claims are proved on the
transition system below).  As in Go, `done` is set before the dependencies run,
`err` is overwritten with every received dependency result, the first failing
dependency aborts the task, and otherwise the result of the body is recorded.  `fuel`
bounds the recursion depth; the graphs that reach execution are acyclic, so one more
than the number of tasks suffices. -/
def run_dep_step (recur : Tasker → String → TaskRes × Tasker) (name : String)
    (acc : TaskRes × Tasker) (dep : String) : TaskRes × Tasker :=
  match acc.1 with
  | some e => (some e, acc.2)
  | none =>
    match recur acc.2 dep with
    | (e, tr2) => (e, update_ti tr2 name (fun t => { t with err := e }))

def run_body (ti : task_info) (name : String) (folded : TaskRes × Tasker) :
    TaskRes × Tasker :=
  match folded.1 with
  | some e => (some e, folded.2)
  | none => (ti.task, update_ti folded.2 name (fun t => { t with err := ti.task }))

def runTask : Nat → Tasker → String → TaskRes × Tasker
  | 0, tr, _ => (some "tasker: out of fuel", tr)
  | fuel+1, tr, name =>
    match lookup_ti tr name with
    | none => (some "tasker: task not found", tr)  -- unreachable after verify
    | some ti =>
      if ti.done then (ti.err, tr)
      else
        run_body ti name
          ((lookup_deps tr name).foldl (run_dep_step (runTask fuel) name)
            (none, update_ti tr name (fun t => { t with done := true })))

/-- Sequential embedding of `runTasks`: run every root, return the first error. -/
def runTasks (tr : Tasker) (names : List String) : TaskRes × Tasker :=
  names.foldl
    (fun (acc : TaskRes × Tasker) name =>
      match runTask (acc.2.tis.length + 1) acc.2 name with
      | (e, tr2) => (if acc.1 = none then e else acc.1, tr2))
    (none, tr)

/-- Embeds `Run`.  `names` is the argument list (empty means run all registered
tasks, which Go gathers by iterating the `tis` map; registration order stands in for
that iteration order here).  `order` is the iteration order the validator uses.  The
`was_run` guard, the validator, the subset check and the point at which `was_run` is
set follow the source exactly: `was_run` becomes true only after validation and the
subset check have passed.  `run_all` is the execution tail: consume the scheduler
(`was_run := true`), expand an empty argument list to the full key set, run the
roots, and wrap the first task error, if any, as `RunErr.taskFailed`. -/
def run_all (tr1 : Tasker) (names : List String) : Option RunErr × Tasker :=
  match runTasks { tr1 with was_run := true }
      (if names.isEmpty then tr1.tis.map Prod.fst else names) with
  | (e, tr3) => (e.map RunErr.taskFailed, tr3)

def Run (tr : Tasker) (names : List String) (order : List String) :
    Except go_panic (Option RunErr × Tasker) :=
  if tr.was_run then .ok (some .alreadyRun, tr)
  else
    match verify tr order with
    | .error p => .error p
    | .ok (some e, tr1) => .ok (some e, tr1)
    | .ok (none, tr1) =>
      match names.find? (fun n => (lookup_ti tr1 n).isNone) with
      | some n => .ok (some (.notFound n), tr1)
      | none => .ok (run_all tr1 names)

/-! ### Concrete schedulers used by the claims

Each is built through `NewTasker`/`Add`, the same way a Go caller would. -/

/-- The scheduler `NewTasker (-1)` returns: empty, unbounded cap. -/
def tasker0 : Tasker :=
  { tis := [], dep_graph := [], n := -1, index := -1, stack := new_string_stack,
    cycles := [], was_run := false }

theorem NewTasker_neg_one : NewTasker (-1) = some tasker0 := by decide

/-- Tasks `a → [b, c]`, `b → [a]`, `c → [b]`: one strongly connected component
`{a, b, c}`, every dependency registered.  When the outer validator loop starts at
`a`, the edge `c → b` reaches `b` on the stack with `index b = 1` but `lowlink b = 0`,
which trips the `panic` in `find_cycles`. -/
def g_panic : Tasker :=
  ((do
    let t1 ← tasker0.Add "a" ["b", "c"] none
    let t2 ← t1.Add "b" ["a"] none
    t2.Add "c" ["b"] none : Except String Tasker)).toOption.getD tasker0

/-- Tasks `a → [b]`, `b → [a]`: the two-vertex cycle. -/
def g_cycle2 : Tasker :=
  ((do
    let t1 ← tasker0.Add "a" ["b"] none
    t1.Add "b" ["a"] none : Except String Tasker)).toOption.getD tasker0

/-- Tasks `a → [b]`, `b → [a, c]`, `c → [d]`, `d → [c]`: two strongly connected
components `{a, b}` and `{c, d}`; the component of `a` is discovered first
(`index a = 0`) but closes second. -/
def g_two_sccs : Tasker :=
  ((do
    let t1 ← tasker0.Add "a" ["b"] none
    let t2 ← t1.Add "b" ["a", "c"] none
    let t3 ← t2.Add "c" ["d"] none
    t3.Add "d" ["c"] none : Except String Tasker)).toOption.getD tasker0

/-- A single task `foo` with no dependencies and a succeeding body. -/
def g_single : Tasker :=
  (tasker0.Add "foo" [] none).toOption.getD tasker0

/-- The state of `find_cycles` on `g_two_sccs` run with outer order `a, b, c, d`. -/
def fc_two : Tasker :=
  (find_cycles g_two_sccs ["a", "b", "c", "d"]).toOption.getD g_two_sccs

/-- C1: on the registered set `g_panic` every dependency is registered, and its
graph has one multi-vertex SCC `{a, b, c}`, so the claim demands that validation
return a `CycleError` carrying exactly that component.  Instead the cycle check hits
the panic branch (index and lowlink of the on-stack vertex differ) when iteration starts at
`a`: `verify` never returns. -/
theorem c1_verify_panics_on_cyclic_graph :
    verify g_panic ["a", "b", "c"] = .error .index_lowlink_differ ∧
    g_panic.dep_graph.all
      (fun p => p.2.all (fun d => (lookup_ti g_panic d).isSome)) = true := by
  exact ⟨by rfl, by rfl⟩

/-- C8: the cycle check does not run to completion on `g_panic` with iteration
order `a, b, c`: following the edge `c → b` finds `b` on the stack with
`index b = 1 ≠ 0 = lowlink b`, and the code panics. -/
theorem c8_find_cycles_panics :
    find_cycles g_panic ["a", "b", "c"] = .error .index_lowlink_differ := by rfl

/-- The outcome of the first `Run` on the two-vertex cycle. -/
def run1_cycle2 : Option RunErr × Tasker :=
  (Run g_cycle2 [] ["a", "b"]).toOption.getD (none, g_cycle2)

/-- The outcome of a second `Run` after the first one failed validation. -/
def run2_cycle2 : Option RunErr × Tasker :=
  (Run run1_cycle2.2 [] ["a", "b"]).toOption.getD (none, run1_cycle2.2)

/-- C2 counterexample: a first `Run` whose outcome is a `CycleError` does *not*
leave the scheduler consumed — `was_run` stays false and a second `Run` returns the
same `CycleError` again, not `AlreadyRunError` with display `tasker: already run`. -/
theorem c2_counterexample :
    Run g_cycle2 [] ["a", "b"] = .ok (run1_cycle2.1, run1_cycle2.2) ∧
    run1_cycle2.1 = some (.cycle [["b", "a"]]) ∧
    run1_cycle2.2.was_run = false ∧
    run2_cycle2.1 = some (.cycle [["b", "a"]]) ∧
    run2_cycle2.1 ≠ some RunErr.alreadyRun ∧
    (RunErr.cycle [["b", "a"]]).message ≠ "tasker: already run" := by
  refine ⟨by rfl, by rfl, by rfl, by rfl, by decide, by decide⟩

/-- C7 counterexample: on `g_two_sccs` with iteration order `a, b, c, d` the
cycle list computed by the validator is `[[d, c], [b, a]]`.  The first name of each component
(`d`, `b`) is not the root that closed it — its lowlink differs from its index —
while the last name (`c`, `a`) is the root; and the component of `a`
(discovered first, `index a = 0 < 2 = index c`) is listed second, so the components
are not in discovery order. -/
theorem c7_counterexample :
    find_cycles g_two_sccs ["a", "b", "c", "d"] = .ok fc_two ∧
    fc_two.cycles = [["d", "c"], ["b", "a"]] ∧
    (lookup_ti fc_two "d").map task_info.lowlink ≠
      (lookup_ti fc_two "d").map task_info.index ∧
    (lookup_ti fc_two "b").map task_info.lowlink ≠
      (lookup_ti fc_two "b").map task_info.index ∧
    (lookup_ti fc_two "c").map task_info.lowlink =
      (lookup_ti fc_two "c").map task_info.index ∧
    (lookup_ti fc_two "a").map task_info.lowlink =
      (lookup_ti fc_two "a").map task_info.index ∧
    (lookup_ti fc_two "a").map task_info.index = some 0 ∧
    (lookup_ti fc_two "c").map task_info.index = some 2 := by
  refine ⟨by rfl, by rfl, by decide, by decide, by rfl, by rfl, by rfl, by rfl⟩

/-! ### Helper lemmas: folds, lookups, and state preservation -/

theorem foldl_preserves {α β : Type _} (p : β → Prop) (f : β → α → β) (l : List α)
    (b : β) (hb : p b) (hf : ∀ b a, p b → p (f b a)) : p (l.foldl f b) := by
  induction l generalizing b with
  | nil => exact hb
  | cons x xs ih => exact ih _ (hf _ _ hb)

theorem foldlM_except_preserves {α β ε : Type _} (p : β → Prop)
    (f : β → α → Except ε β) (l : List α) (b b' : β)
    (h : l.foldlM f b = .ok b') (hb : p b)
    (hf : ∀ b a b2, p b → f b a = .ok b2 → p b2) : p b' := by
  induction l generalizing b with
  | nil =>
    simp only [List.foldlM_nil] at h
    cases h
    exact hb
  | cons x xs ih =>
    rw [List.foldlM_cons] at h
    cases hfx : f b x with
    | error e =>
      rw [hfx] at h
      have h' : (Except.error e : Except ε β) = Except.ok b' := h
      cases h'
    | ok b2 =>
      rw [hfx] at h
      have h' : xs.foldlM f b2 = Except.ok b' := h
      exact ih b2 h' (hf b x b2 hb hfx)

/-- Association-list fact behind `update_ti`: looking up `m` after the pointwise
update of `n`. -/
theorem find_update_assoc (l : List (String × task_info)) (n m : String)
    (f : task_info → task_info) :
    ((l.map (fun p => if p.1 == n then (p.1, f p.2) else p)).find?
        (fun p => p.1 == m)).map Prod.snd =
      if m = n then ((l.find? (fun p => p.1 == m)).map Prod.snd).map f
      else (l.find? (fun p => p.1 == m)).map Prod.snd := by
  induction l with
  | nil => by_cases h : m = n <;> simp [h]
  | cons q l ih =>
    simp only [List.map_cons]
    by_cases hqn : q.1 = n
    · have hhead : (if (q.1 == n) then ((q.1 : String), f q.2) else q) = (q.1, f q.2) := by
        simp [hqn]
      rw [hhead]
      by_cases hqm : q.1 = m
      · have hmn : m = n := by rw [← hqm, hqn]
        rw [if_pos hmn]
        rw [List.find?_cons_of_pos _ (by simpa using hqm),
          List.find?_cons_of_pos _ (by simpa using hqm)]
        simp
      · have hmn : ¬(m = n) := fun h => hqm (by rw [hqn, ← h])
        rw [if_neg hmn]
        rw [List.find?_cons_of_neg _ (by simpa using hqm),
          List.find?_cons_of_neg _ (by simpa using hqm)]
        have hih := ih
        rw [if_neg hmn] at hih
        exact hih
    · have hhead : (if (q.1 == n) then ((q.1 : String), f q.2) else q) = q := by
        simp [hqn]
      rw [hhead]
      by_cases hqm : q.1 = m
      · have hmn : ¬(m = n) := fun h => hqn (by rw [hqm, h])
        rw [if_neg hmn]
        rw [List.find?_cons_of_pos _ (by simpa using hqm),
          List.find?_cons_of_pos _ (by simpa using hqm)]
      · by_cases hmn : m = n
        · rw [if_pos hmn]
          rw [List.find?_cons_of_neg _ (by simpa using hqm),
            List.find?_cons_of_neg _ (by simpa using hqm)]
          have hih := ih
          rw [if_pos hmn] at hih
          exact hih
        · rw [if_neg hmn]
          rw [List.find?_cons_of_neg _ (by simpa using hqm),
            List.find?_cons_of_neg _ (by simpa using hqm)]
          have hih := ih
          rw [if_neg hmn] at hih
          exact hih

/-- Characterises lookup after a pointwise update. -/
theorem lookup_update_ti (tr : Tasker) (n : String) (f : task_info → task_info)
    (m : String) :
    lookup_ti (update_ti tr n f) m =
      if m = n then (lookup_ti tr m).map f else lookup_ti tr m := by
  unfold lookup_ti update_ti
  by_cases h : m = n
  · rw [if_pos h]
    have := find_update_assoc tr.tis n m f
    rw [if_pos h] at this
    exact this
  · rw [if_neg h]
    have := find_update_assoc tr.tis n m f
    rw [if_neg h] at this
    exact this

/-- Lookup commutes with resetting every entry pointwise. -/
theorem lookup_map_all (tr : Tasker) (g : task_info → task_info) (m : String) :
    lookup_ti { tr with tis := tr.tis.map (fun p => (p.1, g p.2)) } m =
      (lookup_ti tr m).map g := by
  unfold lookup_ti
  simp only
  induction tr.tis with
  | nil => rfl
  | cons q l ih =>
    simp only [List.map_cons]
    by_cases hm : q.1 = m
    · rw [List.find?_cons_of_pos _ (by simpa using hm),
        List.find?_cons_of_pos _ (by simpa using hm)]
      rfl
    · rw [List.find?_cons_of_neg _ (by simpa using hm),
        List.find?_cons_of_neg _ (by simpa using hm)]
      exact ih

/-- The execution-visible per-task state: the `done` and `err` fields. -/
def done_err (tr : Tasker) (m : String) : Option (Bool × TaskRes) :=
  (lookup_ti tr m).map (fun ti => (ti.done, ti.err))

theorem done_err_update_ti (tr : Tasker) (n : String) (f : task_info → task_info)
    (hf : ∀ ti, (f ti).done = ti.done ∧ (f ti).err = ti.err) (m : String) :
    done_err (update_ti tr n f) m = done_err tr m := by
  unfold done_err
  rw [lookup_update_ti]
  by_cases hm : m = n
  · subst hm
    cases lookup_ti tr m with
    | none => simp
    | some ti => simp [(hf ti).1, (hf ti).2]
  · simp [hm]


/-! ### The validator touches only the Tarjan bookkeeping -/

/-- Association-list fact: mapping every value pointwise commutes with lookup. -/
theorem find_map_assoc (l : List (String × task_info)) (g : task_info → task_info)
    (m : String) :
    ((l.map (fun p => (p.1, g p.2))).find? (fun p => p.1 == m)).map Prod.snd =
      ((l.find? (fun p => p.1 == m)).map Prod.snd).map g := by
  induction l with
  | nil => rfl
  | cons q l ih =>
    simp only [List.map_cons]
    by_cases hm : q.1 = m
    · rw [List.find?_cons_of_pos _ (by simpa using hm),
        List.find?_cons_of_pos _ (by simpa using hm)]
      rfl
    · rw [List.find?_cons_of_neg _ (by simpa using hm),
        List.find?_cons_of_neg _ (by simpa using hm)]
      exact ih

/-- `t` and `t0` agree on every execution-visible field: per-task `done`/`err` and
the `was_run` flag. -/
def exec_eq (t t0 : Tasker) : Prop :=
  (∀ m, done_err t m = done_err t0 m) ∧ t.was_run = t0.was_run

theorem exec_eq_refl (t : Tasker) : exec_eq t t := ⟨fun _ => rfl, rfl⟩

theorem exec_eq_trans {a b c : Tasker} (h1 : exec_eq a b) (h2 : exec_eq b c) :
    exec_eq a c :=
  ⟨fun m => (h1.1 m).trans (h2.1 m), h1.2.trans h2.2⟩

theorem exec_eq_update (t : Tasker) (n : String) (f : task_info → task_info)
    (hf : ∀ ti, (f ti).done = ti.done ∧ (f ti).err = ti.err) :
    exec_eq (update_ti t n f) t :=
  ⟨fun m => done_err_update_ti t n f hf m, rfl⟩

theorem clear_on_stack_exec (t : Tasker) (scc : List String) :
    exec_eq (clear_on_stack t scc) t :=
  foldl_preserves (fun x => exec_eq x t) _ scc t (exec_eq_refl t)
    (fun b w hb => exec_eq_trans (exec_eq_update b w _ (fun _ => ⟨rfl, rfl⟩)) hb)

theorem record_scc_exec (tr3 : Tasker) (scc : List String) (rest : string_stack) :
    exec_eq (record_scc tr3 scc rest) tr3 := by
  unfold record_scc
  by_cases h : scc.length > 1
  · rw [if_pos h]
    refine exec_eq_trans ⟨fun m => rfl, rfl⟩ ?_
    exact exec_eq_trans (clear_on_stack_exec _ scc) ⟨fun m => rfl, rfl⟩
  · rw [if_neg h]
    exact exec_eq_trans (clear_on_stack_exec _ scc) ⟨fun m => rfl, rfl⟩

theorem sc_close_preserves (v : String) (t3 t' : Tasker)
    (h : sc_close v t3 = .ok t') : exec_eq t' t3 := by
  unfold sc_close at h
  split at h
  · cases h; exact exec_eq_refl _
  · split at h
    · split at h
      · cases h
      · cases h; exact record_scc_exec _ _ _
    · cases h; exact exec_eq_refl _

theorem sc_edge_preserves (recur : Tasker → String → Except go_panic Tasker)
    (v : String)
    (hrec : ∀ t w t2, recur t w = .ok t2 → exec_eq t2 t)
    (t : Tasker) (w : String) (t' : Tasker) (h : sc_edge recur v t w = .ok t') :
    exec_eq t' t := by
  unfold sc_edge at h
  split at h
  · cases h; exact exec_eq_refl _
  · rename_i w_ti hl
    split at h
    · cases hr : recur t w with
      | error p =>
        rw [hr] at h
        simp only [Except.map] at h
        cases h
      | ok t2 =>
        rw [hr] at h
        simp only [Except.map, Except.ok.injEq] at h
        have h2 : exec_eq t2 t := hrec t w t2 hr
        subst h
        split
        · split
          · exact exec_eq_trans (exec_eq_update t2 v _ (fun _ => ⟨rfl, rfl⟩)) h2
          · exact h2
        · exact h2
    · split at h
      · split at h
        · cases h
        · split at h
          · cases h
            split
            · exact exec_eq_update t v _ (fun _ => ⟨rfl, rfl⟩)
            · exact exec_eq_refl _
          · cases h; exact exec_eq_refl _
      · cases h; exact exec_eq_refl _

theorem sc_visit_exec (t : Tasker) (v : String) : exec_eq (sc_visit t v) t :=
  exec_eq_trans
    (show exec_eq (sc_visit t v) (update_ti t v (fun ti =>
        { ti with index := t.index, lowlink := t.index, on_stack := true })) from
      ⟨fun _ => rfl, rfl⟩)
    (exec_eq_update t v _ (fun _ => ⟨rfl, rfl⟩))

theorem strongconnect_preserves :
    ∀ (fuel : Nat) (t : Tasker) (v : String) (t' : Tasker),
      strongconnect fuel t v = .ok t' → exec_eq t' t := by
  intro fuel
  induction fuel with
  | zero =>
    intro t v t' h
    cases h
    exact exec_eq_refl _
  | succ fuel ih =>
    intro t v t' h
    simp only [strongconnect] at h
    split at h
    · cases h
    · rename_i tr3 hfold
      have h3 : exec_eq tr3 (sc_visit t v) :=
        foldlM_except_preserves (fun x => exec_eq x (sc_visit t v)) _ _ _ _ hfold
          (exec_eq_refl _)
          (fun b a b2 hb hstep =>
            exec_eq_trans
              (sc_edge_preserves (strongconnect fuel) v
                (fun tx wx tx2 hx => ih tx wx tx2 hx) b a b2 hstep) hb)
      exact exec_eq_trans (exec_eq_trans (sc_close_preserves v tr3 t' h) h3)
        (sc_visit_exec t v)

theorem lookup_reset (tr : Tasker) (m : String) :
    lookup_ti (reset_tarjan tr) m = (lookup_ti tr m).map
      (fun ti => { ti with index := -1, lowlink := -1, on_stack := false }) := by
  simp only [lookup_ti, reset_tarjan]
  generalize tr.tis = l
  induction l with
  | nil => rfl
  | cons q l ih =>
    simp only [List.map_cons]
    by_cases hm : q.1 = m
    · rw [List.find?_cons_of_pos _ (by simpa using hm),
        List.find?_cons_of_pos _ (by simpa using hm)]
      rfl
    · rw [List.find?_cons_of_neg _ (by simpa using hm),
        List.find?_cons_of_neg _ (by simpa using hm)]
      exact ih

theorem reset_tarjan_exec (tr : Tasker) : exec_eq (reset_tarjan tr) tr := by
  refine ⟨fun m => ?_, rfl⟩
  unfold done_err
  rw [lookup_reset]
  cases lookup_ti tr m <;> rfl

theorem find_cycles_preserves (tr : Tasker) (order : List String) (t' : Tasker)
    (h : find_cycles tr order = .ok t') : exec_eq t' tr := by
  unfold find_cycles at h
  have hmain : exec_eq t' (reset_tarjan tr) :=
    foldlM_except_preserves (fun x => exec_eq x (reset_tarjan tr)) _ order _ t' h
      (exec_eq_refl _)
      (fun b a b2 hb hstep => by
        split at hstep
        · cases hstep; exact hb
        · split at hstep
          · exact exec_eq_trans
              (strongconnect_preserves (b.tis.length + 1) b a b2 hstep) hb
          · cases hstep; exact hb)
  exact exec_eq_trans hmain (reset_tarjan_exec tr)

theorem verify_preserves (tr : Tasker) (order : List String) (r : Option RunErr)
    (t' : Tasker) (h : verify tr order = .ok (r, t')) : exec_eq t' tr := by
  unfold verify at h
  split at h
  · cases h; exact exec_eq_refl _
  · split at h
    · cases h
    · rename_i t2 hfc
      split at h
      · cases h; exact find_cycles_preserves tr order _ hfc
      · cases h; exact find_cycles_preserves tr order _ hfc

/-! ### The executor and the `was_run` flag -/

theorem run_dep_step_was_run (recur : Tasker → String → TaskRes × Tasker)
    (name : String) (hrec : ∀ t d, (recur t d).2.was_run = t.was_run)
    (acc : TaskRes × Tasker) (dep : String) :
    (run_dep_step recur name acc dep).2.was_run = acc.2.was_run := by
  unfold run_dep_step
  split
  · rfl
  · split
    · rename_i e tr2 hr
      have h2 := hrec acc.2 dep
      rw [hr] at h2
      exact h2

theorem runTask_was_run :
    ∀ (fuel : Nat) (tr : Tasker) (name : String),
      (runTask fuel tr name).2.was_run = tr.was_run := by
  intro fuel
  induction fuel with
  | zero => intro tr name; rfl
  | succ fuel ih =>
    intro tr name
    simp only [runTask]
    split
    · rfl
    · rename_i ti hl
      split
      · rfl
      · have hfold := foldl_preserves
          (fun (acc : TaskRes × Tasker) => acc.2.was_run = tr.was_run)
          (run_dep_step (runTask fuel) name) (lookup_deps tr name)
          (none, update_ti tr name (fun t => { t with done := true })) rfl
          (fun b a hb =>
            (run_dep_step_was_run (runTask fuel) name (fun t d => ih t d) b a).trans hb)
        unfold run_body
        split
        · exact hfold
        · exact hfold

theorem runTasks_was_run (tr : Tasker) (names : List String) :
    (runTasks tr names).2.was_run = tr.was_run := by
  unfold runTasks
  exact foldl_preserves (fun (acc : TaskRes × Tasker) => acc.2.was_run = tr.was_run)
    _ names (none, tr) rfl
    (fun b a hb => by
      split
      · rename_i e tr2 hr
        have h2 := runTask_was_run (b.2.tis.length + 1) b.2 a
        rw [hr] at h2
        exact h2.trans hb)

theorem findSome?_gives {α β : Type _} (f : α → Option β) (l : List α) (x : β)
    (h : l.findSome? f = some x) : ∃ a, f a = some x := by
  induction l with
  | nil => cases h
  | cons q l ih =>
    rw [List.findSome?_cons] at h
    split at h
    · rename_i y hq
      exact ⟨q, hq.trans h⟩
    · exact ih h

/-- The validator returns only the two validation errors: a missing dependency or
the cycle collection. -/
theorem verify_shape (tr : Tasker) (order : List String) (e : RunErr) (t1 : Tasker)
    (h : verify tr order = .ok (some e, t1)) :
    (∃ v w, e = .depNotFound v w) ∨ (∃ c, e = .cycle c) := by
  unfold verify at h
  split at h
  · rename_i e0 hf
    cases h
    obtain ⟨p, hp⟩ := findSome?_gives _ _ _ hf
    obtain ⟨d, hd⟩ := findSome?_gives _ _ _ hp
    by_cases hn : (lookup_ti tr d).isNone
    · rw [if_pos hn] at hd
      cases hd
      exact Or.inl ⟨p.1, d, rfl⟩
    · rw [if_neg hn] at hd
      cases hd
  · split at h
    · cases h
    · rename_i t2 hfc
      split at h
      · cases h
        exact Or.inr ⟨_, rfl⟩
      · simp only [Except.ok.injEq, Prod.mk.injEq] at h
        exact absurd h.1 (by simp)

/-- C2 amended: a second `Run` returns `AlreadyRunError` exactly when the first call
*reached execution* — passed validation and the subset check — whatever that
execution returned (success or a task failure).  A first call that failed validation
or the subset check leaves `was_run` unchanged (see C9) and is not refused. -/
theorem c2_amended (tr : Tasker) (names order : List String) (r : Option RunErr)
    (tr' : Tasker) (hrun : Run tr names order = .ok (r, tr'))
    (hexec : r = none ∨ ∃ s, r = some (.taskFailed s)) :
    tr'.was_run = true ∧
    (∀ names2 order2, Run tr' names2 order2 = .ok (some .alreadyRun, tr')) ∧
    RunErr.message .alreadyRun = "tasker: already run" := by
  have hwr : tr'.was_run = true := by
    unfold Run at hrun
    split at hrun
    · cases hrun
      rcases hexec with h | ⟨s, h⟩
      · cases h
      · simp at h
    · split at hrun
      · cases hrun
      · rename_i e tr1 hv
        injection hrun with hp
        injection hp with h1 h2
        rcases hexec with h | ⟨s, h⟩
        · rw [← h1] at h; cases h
        · rw [← h1] at h
          have he : e = .taskFailed s := by injection h
          rcases verify_shape tr order e tr1 hv with ⟨v0, w0, hw⟩ | ⟨c, hc⟩
          · rw [he] at hw; cases hw
          · rw [he] at hc; cases hc
      · rename_i tr1 hv
        split at hrun
        · cases hrun
          rcases hexec with h | ⟨s, h⟩
          · cases h
          · simp at h
        · have hpair : run_all tr1 names = (r, tr') := by injection hrun
          have h2 : tr' = (run_all tr1 names).2 := by rw [hpair]
          rw [h2]
          unfold run_all
          split
          · rename_i e2 tr3 hr
            have h3 := runTasks_was_run { tr1 with was_run := true }
              (if names.isEmpty then tr1.tis.map Prod.fst else names)
            rw [hr] at h3
            exact h3
  refine ⟨hwr, fun names2 order2 => ?_, rfl⟩
  unfold Run
  rw [if_pos hwr]

/-- On a scheduler whose `was_run` flag is still false, `Run` never reports
`AlreadyRunError`: its other outcomes are validation errors, an unknown-subset
error, or a task failure. -/
theorem run_not_alreadyRun (tr : Tasker) (names order : List String)
    (r2 : RunErr) (tr2 : Tasker) (hwr : tr.was_run = false)
    (h : Run tr names order = .ok (some r2, tr2)) : r2 ≠ .alreadyRun := by
  unfold Run at h
  rw [if_neg (by rw [hwr]; exact Bool.false_ne_true)] at h
  split at h
  · cases h
  · rename_i e tr1 hv
    injection h with hp
    injection hp with h1 h2
    have h1' : e = r2 := by injection h1
    subst h1'
    rcases verify_shape tr order e tr1 hv with ⟨v0, w0, he⟩ | ⟨c, he⟩ <;>
      subst he <;> intro hc <;> cases hc
  · split at h
    · injection h with hp
      injection hp with h1 h2
      intro hc
      subst hc
      exact RunErr.noConfusion (Option.some.inj h1)
    · rename_i x1 tr1 hv x2 hfind
      have hpair : run_all tr1 names = (some r2, tr2) := by injection h
      unfold run_all at hpair
      split at hpair
      · rename_i e2 tr3 hr
        simp only [Prod.mk.injEq] at hpair
        cases e2 with
        | none => cases hpair.1
        | some s =>
          have : RunErr.taskFailed s = r2 := by
            have := hpair.1
            simp only [Option.map] at this
            injection this
          subst this
          intro hc
          cases hc

/-- C9: when `Run` returns without starting execution — already consumed, a
validation error (missing dependency or cycle), or an unknown subset name — the
`was_run` flag and every per-task `done`/`err` pair are unchanged; in particular a
validation failure does not consume the scheduler, so a later `Run` on it is never
refused as already run. -/
theorem c9_early_return_preserves_state (tr : Tasker) (names order : List String)
    (r : RunErr) (tr' : Tasker) (hrun : Run tr names order = .ok (some r, tr'))
    (hearly : ∀ s, r ≠ .taskFailed s) :
    tr'.was_run = tr.was_run ∧ (∀ m, done_err tr' m = done_err tr m) ∧
    (tr.was_run = false → ∀ names2 order2 r2 tr2,
      Run tr' names2 order2 = .ok (some r2, tr2) → r2 ≠ .alreadyRun) := by
  have hmain : exec_eq tr' tr := by
    unfold Run at hrun
    split at hrun
    · cases hrun
      exact exec_eq_refl _
    · split at hrun
      · cases hrun
      · rename_i e tr1 hv
        injection hrun with hp
        injection hp with h1 h2
        rw [← h2]
        exact verify_preserves tr order _ _ hv
      · rename_i tr1 hv
        split at hrun
        · injection hrun with hp
          injection hp with h1 h2
          rw [← h2]
          exact verify_preserves tr order _ _ hv
        · have hpair : run_all tr1 names = (some r, tr') := by injection hrun
          unfold run_all at hpair
          split at hpair
          · rename_i e2 tr3 hr
            simp only [Prod.mk.injEq] at hpair
            cases e2 with
            | none => cases hpair.1
            | some s =>
              have hr2 : RunErr.taskFailed s = r := by
                have := hpair.1
                simp only [Option.map] at this
                injection this
              exact absurd hr2.symm (hearly s)
  exact ⟨hmain.2, hmain.1, fun hfresh names2 order2 r2 tr2 hrun2 =>
    run_not_alreadyRun tr' names2 order2 r2 tr2 (hmain.2.trans hfresh) hrun2⟩

/-- The scheduler state `Add` produces on success: the new entry appended to both
maps. -/
def add_result (tr : Tasker) (name : String) (deps : List String) (body : TaskRes) :
    Tasker :=
  { tr with tis := tr.tis ++ [(name, new_task_info body)],
            dep_graph := tr.dep_graph ++ [(name, deps)] }

/-- C10: `Add` never consults `was_run`.  On a consumed scheduler, registering a
fresh non-empty name that does not depend on itself still succeeds and stores the
entry — even though every later `Run` is refused as already run, so the new task can
never execute. -/
theorem c10_add_ignores_consumed (tr : Tasker) (name : String) (deps : List String)
    (body : TaskRes) (hwr : tr.was_run = true) (hne : name ≠ "")
    (hfresh : lookup_ti tr name = none) (hself : name ∉ deps) :
    tr.Add name deps body = .ok (add_result tr name deps body) ∧
    lookup_ti (add_result tr name deps body) name = some (new_task_info body) ∧
    (add_result tr name deps body).was_run = true ∧
    ∀ names order, Run (add_result tr name deps body) names order =
      .ok (some .alreadyRun, add_result tr name deps body) := by
  refine ⟨?_, ?_, hwr, ?_⟩
  · unfold Tasker.Add
    rw [if_neg hne, if_neg (by rw [hfresh]; simp),
      if_neg (by
        intro hcontra
        rw [List.any_eq_true] at hcontra
        obtain ⟨x, hx, he⟩ := hcontra
        exact hself (by rwa [eq_of_beq he]))]
    rfl
  · unfold lookup_ti add_result
    simp only
    rw [List.find?_append]
    have hnone : tr.tis.find? (fun p => p.1 == name) = none := by
      unfold lookup_ti at hfresh
      exact Option.map_eq_none'.mp hfresh
    rw [hnone]
    simp [List.find?_cons_of_pos]
  · intro names order
    unfold Run
    rw [if_pos (show (add_result tr name deps body).was_run = true from hwr)]

/-! ### Witnesses built from concrete runs -/

/-- The outcome of running the single-task scheduler `g_single`. -/
def run_single : Option RunErr × Tasker :=
  (Run g_single [] ["foo"]).toOption.getD (none, g_single)

theorem c2_amended_witness :
    run_single.2.was_run = true ∧
    Run run_single.2 [] ["foo"] = .ok (some .alreadyRun, run_single.2) :=
  have h := c2_amended g_single [] ["foo"] none run_single.2 (by rfl) (Or.inl rfl)
  ⟨h.1, h.2.1 [] ["foo"]⟩

theorem c9_witness :
    run1_cycle2.2.was_run = g_cycle2.was_run ∧
    done_err run1_cycle2.2 "a" = done_err g_cycle2 "a" :=
  have h := c9_early_return_preserves_state g_cycle2 [] ["a", "b"]
    (.cycle [["b", "a"]]) run1_cycle2.2 (by rfl)
    (fun s hc => RunErr.noConfusion hc)
  ⟨h.1, h.2.1 "a"⟩

theorem c10_witness :
    run_single.2.Add "bar" [] none = .ok (add_result run_single.2 "bar" [] none) ∧
    lookup_ti (add_result run_single.2 "bar" [] none) "bar" =
      some (new_task_info none) ∧
    Run (add_result run_single.2 "bar" [] none) [] ["foo", "bar"] =
      .ok (some .alreadyRun, add_result run_single.2 "bar" [] none) :=
  have h := c10_add_ignores_consumed run_single.2 "bar" [] none (by rfl) (by decide)
    (by rfl) (by simp)
  ⟨h.1, h.2.1, h.2.2.2 [] ["foo", "bar"]⟩

/-! ### The shape of one pop and of the SCC-collection loop -/

/-- On a well-formed stack (`count` = slice length, which `push`/`pop` maintain), a
successful pop removes exactly the last element. -/
theorem pop_shape {ss : string_stack} {w : String} {ss' : string_stack}
    (hwf : ss.count = ss.stack.length) (h : ss.pop = some (w, ss')) :
    ss.stack = ss'.stack ++ [w] ∧ ss'.count = ss'.stack.length := by
  unfold string_stack.pop at h
  split at h
  · cases h
  · rename_i hc
    split at h
    · cases h
    · rename_i e hg
      cases h
      constructor
      · calc ss.stack
            = ss.stack.take ss.stack.length := (List.take_length ss.stack).symm
          _ = ss.stack.take ((ss.count - 1) + 1) := by
              rw [show ss.count - 1 + 1 = ss.count by omega, hwf]
          _ = ss.stack.take (ss.count - 1) ++ (ss.stack.get? (ss.count - 1)).toList := by
              rw [List.take_succ, List.get?_eq_getElem?]
          _ = ss.stack.take (ss.count - 1) ++ [w] := by rw [hg]; rfl
      · have hlt : ss.count - 1 < ss.stack.length :=
          (List.get?_eq_some.mp hg).1
        simp only [List.length_take]
        omega

/-- C7 amended: within each recorded component the names appear in stack-pop order
with the **root last** (not first): the collection loop pops until it pops `v`, the
root vertex that closed the component, so `v` closes the sequence; and the
components appear in the order their roots close, which is not discovery order
(`fc_two` lists the component of `c`, discovered second, before the component of
`a`, discovered first). -/
theorem c7_amended :
    (∀ (fuel : Nat) (v : String) (ss : string_stack) (acc scc : List String)
        (rest : string_stack), ss.count = ss.stack.length →
        pop_scc v fuel ss acc = some (scc, rest) →
        ∃ popped, scc = acc ++ popped ∧ popped.getLast? = some v ∧
          ss.stack = rest.stack ++ popped.reverse ∧ rest.count = rest.stack.length) ∧
    fc_two.cycles = [["d", "c"], ["b", "a"]] ∧
    (lookup_ti fc_two "a").map task_info.index = some 0 ∧
    (lookup_ti fc_two "c").map task_info.index = some 2 := by
  refine ⟨?_, by rfl, by rfl, by rfl⟩
  intro fuel
  induction fuel with
  | zero =>
    intro v ss acc scc rest hwf h
    cases h
  | succ fuel ih =>
    intro v ss acc scc rest hwf h
    rw [pop_scc] at h
    split at h
    · cases h
    · rename_i w ss' hpop
      have hs := pop_shape hwf hpop
      split at h
      · rename_i hwv
        cases h
        refine ⟨[w], rfl, by rw [hwv]; rfl, ?_, hs.2⟩
        rw [hs.1]
        rfl
      · obtain ⟨popped, h1, h2, h3, h4⟩ := ih v ss' (acc ++ [w]) scc rest hs.2 h
        refine ⟨w :: popped, by rw [h1]; simp, ?_, ?_, h4⟩
        · cases popped with
          | nil => cases h2
          | cons a l =>
            rw [List.getLast?_cons_cons]
            exact h2
        · rw [hs.1, h3]
          simp [List.append_assoc]

theorem c7_amended_witness :
    ∃ popped, ["b", "a"] = ([] : List String) ++ popped ∧
      popped.getLast? = some "a" ∧
      (⟨["a", "b"], 2⟩ : string_stack).stack =
        (⟨[], 0⟩ : string_stack).stack ++ popped.reverse ∧
      (⟨[], 0⟩ : string_stack).count = (⟨[], 0⟩ : string_stack).stack.length :=
  c7_amended.1 2 "a" ⟨["a", "b"], 2⟩ [] ["b", "a"] ⟨[], 0⟩ rfl rfl

/-! ### The concurrent executor as a transition system

`runTask` (tasker.go lines 289–330) is dispatched as one goroutine per task
occurrence.  Each goroutine: takes the per-task mutex; if `done` is already set it
sends the recorded `err` on its parent channel and returns; otherwise it sets
`done`, spawns one goroutine per direct dependency sharing a private unbuffered
channel `dep_err_ch`, receives one result per dependency (recording each into
`ti.err` and aborting on the first failure), then acquires a semaphore permit,
invokes the body, records and sends its result, releases the permit (deferred
`signal`) and finally the mutex (deferred `unlock`).

The model below is an interleaving small-step semantics of exactly that protocol.
One `Worker` is one goroutine; its `phase` is its program counter.  The per-task
mutex is represented by the guard that a worker may pass `start` only while no
other worker for the same task is between `start` and `dead` (the goroutine holds
the lock for its entire remaining body, as the Go code does).  Unbuffered channels
are rendezvous steps: a receive picks one spawned child that is blocked in its
`sending` phase and advances both sides; `waiting pending` carries the indices of
the children not yet collected (the private channel has exactly the spawned
children as senders, each sending exactly once).  The semaphore is the number of
outstanding permits; `wait` blocks unless that number is below the cap, and a nil
semaphore (cap −1, `Cfg.cap = none`) never blocks.  The fields `owner`,
`everInvoked`, `recvd` and `invoked` are ghost instrumentation recorded by steps
but never read by a guard. -/

/-- Program counter of one `runTask` goroutine. -/
inductive Phase where
  | start
  | waiting (pending : List Nat)
  | acqSem
  | inBody
  | sending
  | signaling
  | unlocking
  | dead
  deriving DecidableEq, Repr

/-- Between `start` and `dead` the goroutine holds the mutex of its task. -/
def Phase.isActive : Phase → Bool
  | .start => false
  | .dead => false
  | _ => true

/-- Phases in which the goroutine may still write its task's `err` field (the
receive loop and the body). -/
def Phase.isPending : Phase → Bool
  | .waiting _ => true
  | .acqSem => true
  | .inBody => true
  | _ => false

/-- One goroutine running `runTask`. -/
structure Worker where
  task : String
  parent : Option Nat
  phase : Phase
  hasPermit : Bool
  owner : Bool
  everInvoked : Bool
  recvd : List (String × Option String)
  deriving Repr

/-- A run configuration: the dependency map, the (opaque) body results, the
semaphore capacity (`none` for the nil semaphore of cap −1) and the root names
`runTasks` dispatches. -/
structure Cfg where
  deps : String → List String
  body : String → Option String
  cap : Option Nat
  roots : List String

/-- The shared state: the per-task `done`/`err` fields of the `task_info` records,
all goroutines spawned so far (a dead goroutine keeps its slot, so indices are
stable), plus ghost instrumentation: `invoked` counts body invocations per task and
`rootRecvd` the results the `runTasks` collector has drained from the shared root
channel. -/
structure Sys where
  done : String → Bool
  err : String → Option String
  ws : List Worker
  invoked : String → Nat
  rootRecvd : List (String × Option String)

/-- A freshly spawned goroutine for task `t` reporting to channel `parent`
(`none` = the shared root channel of `runTasks`). -/
def spawn_worker (t : String) (parent : Option Nat) : Worker :=
  { task := t, parent := parent, phase := .start, hasPermit := false,
    owner := false, everInvoked := false, recvd := [] }

/-- The initial state of `Run` after `was_run := true`: fresh task records, one
goroutine per root. -/
def init_sys (C : Cfg) : Sys :=
  { done := fun _ => false, err := fun _ => none,
    ws := C.roots.map (fun t => spawn_worker t none),
    invoked := fun _ => 0, rootRecvd := [] }

def set_done (f : String → Bool) (t : String) : String → Bool :=
  fun x => if x = t then true else f x

def set_err (f : String → Option String) (t : String) (v : Option String) :
    String → Option String :=
  fun x => if x = t then v else f x

def bump (f : String → Nat) (t : String) : String → Nat :=
  fun x => if x = t then f x + 1 else f x

/-- The task of goroutine `j` (total, for bookkeeping). -/
def task_at (s : Sys) (j : Nat) : String :=
  match s.ws.get? j with
  | some w => w.task
  | none => ""

/-- The mutex of `t` is free for worker `i`: no other goroutine for `t` is between
`start` and `dead`. -/
def lock_free (s : Sys) (i : Nat) (t : String) : Prop :=
  ∀ j wj, s.ws.get? j = some wj → wj.task = t → j ≠ i → wj.phase.isActive = false

/-- The number of semaphore permits currently held (the occupancy of the buffered
channel `tr.semaphore`). -/
def permits (s : Sys) : Nat :=
  (s.ws.filter (fun w => w.hasPermit)).length

/-- One interleaving step of the executor. -/
inductive Step (C : Cfg) : Sys → Sys → Prop where
  /-- Lines 292–308: acquire the mutex, read `done = false`, set it, and spawn one
  goroutine per direct dependency; all of them report to this worker's private
  channel, so its `waiting` list is exactly their indices. -/
  | claim_owner (s : Sys) (i : Nat) (w : Worker)
      (hw : s.ws.get? i = some w) (hph : w.phase = .start)
      (hfree : lock_free s i w.task) (hdone : s.done w.task = false) :
      Step C s { s with
        done := set_done s.done w.task,
        ws := (s.ws.set i { w with
            phase := .waiting ((List.range (C.deps w.task).length).map
              (fun x => s.ws.length + x)),
            owner := true })
          ++ (C.deps w.task).map (fun d => spawn_worker d (some i)) }
  /-- Lines 292–300: acquire the mutex, read `done = true`, and move on to sending
  the recorded error. -/
  | claim_done (s : Sys) (i : Nat) (w : Worker)
      (hw : s.ws.get? i = some w) (hph : w.phase = .start)
      (hfree : lock_free s i w.task) (hdone : s.done w.task = true) :
      Step C s { s with ws := s.ws.set i { w with phase := .sending } }
  /-- Lines 313–321, `ti.err = <-dep_err_ch`: a rendezvous on the private channel.
  Child `j`, blocked in its send, hands over the error currently recorded for its
  task; the parent records it as its own `err` and aborts the wait on a failure.
  Both sides advance (the sender proceeds to its deferred calls). -/
  | recv (s : Sys) (i : Nat) (wi : Worker) (j : Nat) (wj : Worker)
      (l1 l2 : List Nat)
      (hwi : s.ws.get? i = some wi) (hph : wi.phase = .waiting (l1 ++ j :: l2))
      (hwj : s.ws.get? j = some wj) (hsend : wj.phase = .sending) :
      Step C s { s with
        err := set_err s.err wi.task (s.err wj.task),
        ws := (s.ws.set i { wi with
            phase := if s.err wj.task = none then .waiting (l1 ++ l2)
                     else .sending,
            recvd := wi.recvd ++ [(wj.task, s.err wj.task)] }).set j
          { wj with phase := if wj.hasPermit then .signaling else .unlocking } }
  /-- `runTasks` (lines 342–351) drains the shared root channel. -/
  | recv_root (s : Sys) (j : Nat) (wj : Worker)
      (hwj : s.ws.get? j = some wj) (hpar : wj.parent = none)
      (hsend : wj.phase = .sending) :
      Step C s { s with
        rootRecvd := s.rootRecvd ++ [(wj.task, s.err wj.task)],
        ws := s.ws.set j { wj with phase := if wj.hasPermit then .signaling
                                            else .unlocking } }
  /-- Every dependency reported success: fall through to the semaphore. -/
  | deps_ok (s : Sys) (i : Nat) (w : Worker)
      (hw : s.ws.get? i = some w) (hph : w.phase = .waiting []) :
      Step C s { s with ws := s.ws.set i { w with phase := .acqSem } }
  /-- Line 324, `tr.wait()`: blocks while `cap` permits are out; the nil semaphore
  (cap −1) never blocks.  The body invocation begins. -/
  | acquire (s : Sys) (i : Nat) (w : Worker)
      (hw : s.ws.get? i = some w) (hph : w.phase = .acqSem)
      (hcap : ∀ k, C.cap = some k → permits s < k) :
      Step C s { s with
        invoked := bump s.invoked w.task,
        ws := s.ws.set i { w with phase := .inBody, hasPermit := true,
                                  everInvoked := true } }
  /-- Line 328, `ti.err = ti.task()`: the body returns; its result is recorded. -/
  | finish_body (s : Sys) (i : Nat) (w : Worker)
      (hw : s.ws.get? i = some w) (hph : w.phase = .inBody) :
      Step C s { s with
        err := set_err s.err w.task (C.body w.task),
        ws := s.ws.set i { w with phase := .sending } }
  /-- The deferred `tr.signal()` (runs before the deferred unlock). -/
  | signal (s : Sys) (i : Nat) (w : Worker)
      (hw : s.ws.get? i = some w) (hph : w.phase = .signaling) :
      Step C s { s with
        ws := s.ws.set i { w with phase := .unlocking, hasPermit := false } }
  /-- The deferred `ti.unlock()`: the goroutine ends. -/
  | unlock (s : Sys) (i : Nat) (w : Worker)
      (hw : s.ws.get? i = some w) (hph : w.phase = .unlocking) :
      Step C s { s with ws := s.ws.set i { w with phase := .dead } }

/-- The states a run can reach. -/
inductive Reach (C : Cfg) : Sys → Prop where
  | init : Reach C (init_sys C)
  | step (s s' : Sys) (hr : Reach C s) (hs : Step C s s') : Reach C s'

/-! ### Indexing helpers for worker lists -/

theorem get?_set_self {α : Type _} :
    ∀ (l : List α) (i : Nat) (a : α), i < l.length → (l.set i a).get? i = some a := by
  intro l
  induction l with
  | nil => intro i a h; cases h
  | cons x xs ih =>
    intro i a h
    cases i with
    | zero => rfl
    | succ n => exact ih n a (by simpa using h)

theorem get?_set_other {α : Type _} :
    ∀ (l : List α) (i j : Nat) (a : α), j ≠ i → (l.set i a).get? j = l.get? j := by
  intro l
  induction l with
  | nil => intro i j a h; rfl
  | cons x xs ih =>
    intro i j a h
    cases i with
    | zero =>
      cases j with
      | zero => exact absurd rfl h
      | succ m => rfl
    | succ n =>
      cases j with
      | zero => rfl
      | succ m => exact ih n m a (by omega)

theorem get?_some_lt {α : Type _} {l : List α} {j : Nat} {w : α}
    (h : l.get? j = some w) : j < l.length := by
  by_contra hc
  rw [List.get?_eq_none.mpr (by omega)] at h
  cases h

theorem get?_append_l {α : Type _} :
    ∀ (l1 l2 : List α) (j : Nat), j < l1.length →
      (l1 ++ l2).get? j = l1.get? j := by
  intro l1
  induction l1 with
  | nil => intro l2 j h; cases h
  | cons x xs ih =>
    intro l2 j h
    cases j with
    | zero => rfl
    | succ m => exact ih l2 m (by simpa using h)

theorem get?_append_r {α : Type _} (l1 l2 : List α) (j : Nat) :
    (l1 ++ l2).get? (l1.length + j) = l2.get? j := by
  rw [List.get?_eq_getElem?, List.get?_eq_getElem?,
    List.getElem?_append_right (by omega)]
  congr 1
  omega

theorem get?_set_cases {α : Type _} (l : List α) (i j : Nat) (a : α) (wj : α)
    (h : (l.set i a).get? j = some wj) :
    (j = i ∧ wj = a) ∨ (j ≠ i ∧ l.get? j = some wj) := by
  by_cases hj : j = i
  · subst hj
    by_cases hl : j < l.length
    · rw [get?_set_self l j a hl] at h
      exact Or.inl ⟨rfl, (Option.some.inj h).symm⟩
    · rw [List.set_eq_of_length_le (by omega)] at h
      have := get?_some_lt h
      omega
  · rw [get?_set_other l i j a hj] at h
    exact Or.inr ⟨hj, h⟩

theorem get?_append_cases {α : Type _} (l ext : List α) (j : Nat) (wj : α)
    (h : (l ++ ext).get? j = some wj) :
    (j < l.length ∧ l.get? j = some wj) ∨
    (∃ x, j = l.length + x ∧ ext.get? x = some wj) := by
  by_cases hl : j < l.length
  · rw [get?_append_l l ext j hl] at h
    exact Or.inl ⟨hl, h⟩
  · refine Or.inr ⟨j - l.length, by omega, ?_⟩
    have : l.length + (j - l.length) = j := by omega
    rw [← this] at h
    rw [get?_append_r] at h
    exact h

theorem get?_still_set {α : Type _} {l : List α} {i j : Nat} {a wj : α}
    (h : l.get? j = some wj) (hne : j ≠ i) : (l.set i a).get? j = some wj := by
  rw [get?_set_other l i j a hne]; exact h

theorem get?_still_append {α : Type _} {l : List α} (ext : List α) {j : Nat} {wj : α}
    (h : l.get? j = some wj) : (l ++ ext).get? j = some wj := by
  rw [get?_append_l l ext j (get?_some_lt h)]; exact h

theorem filter_length_set_congr {α : Type _} (p : α → Bool) :
    ∀ (l : List α) (i : Nat) (a b : α), l.get? i = some b → p b = p a →
      ((l.set i a).filter p).length = (l.filter p).length := by
  intro l
  induction l with
  | nil => intro i a b h _; cases h
  | cons x xs ih =>
    intro i a b h hp
    cases i with
    | zero =>
      have hb : x = b := Option.some.inj h
      subst hb
      show ((a :: xs).filter p).length = ((x :: xs).filter p).length
      rw [List.filter_cons, List.filter_cons, ← hp]
      split
      · simp
      · rfl
    | succ n =>
      show ((x :: xs.set n a).filter p).length = ((x :: xs).filter p).length
      rw [List.filter_cons, List.filter_cons]
      split
      · simp only [List.length_cons, ih n a b h hp]
      · exact ih n a b h hp

theorem filter_length_set_up {α : Type _} (p : α → Bool) :
    ∀ (l : List α) (i : Nat) (a b : α), l.get? i = some b → p b = false →
      p a = true → ((l.set i a).filter p).length = (l.filter p).length + 1 := by
  intro l
  induction l with
  | nil => intro i a b h _ _; cases h
  | cons x xs ih =>
    intro i a b h hb ha
    cases i with
    | zero =>
      have hxb : x = b := Option.some.inj h
      subst hxb
      show ((a :: xs).filter p).length = ((x :: xs).filter p).length + 1
      rw [List.filter_cons, List.filter_cons, ha, hb]
      simp
    | succ n =>
      show ((x :: xs.set n a).filter p).length = ((x :: xs).filter p).length + 1
      rw [List.filter_cons, List.filter_cons]
      split
      · simp only [List.length_cons, ih n a b h hb ha]
      · exact ih n a b h hb ha

theorem filter_length_set_down {α : Type _} (p : α → Bool) :
    ∀ (l : List α) (i : Nat) (a b : α), l.get? i = some b → p b = true →
      p a = false → (l.filter p).length = ((l.set i a).filter p).length + 1 := by
  intro l
  induction l with
  | nil => intro i a b h _ _; cases h
  | cons x xs ih =>
    intro i a b h hb ha
    cases i with
    | zero =>
      have hxb : x = b := Option.some.inj h
      subst hxb
      show ((x :: xs).filter p).length = ((a :: xs).filter p).length + 1
      rw [List.filter_cons, List.filter_cons, ha, hb]
      simp
    | succ n =>
      show ((x :: xs).filter p).length = ((x :: xs.set n a).filter p).length + 1
      rw [List.filter_cons, List.filter_cons]
      split
      · simp only [List.length_cons, ih n a b h hb ha]
      · exact ih n a b h hb ha


/-! ### The executor invariant -/

/-- No goroutine for `t` can still write the `err` field of `t`: every recorded
result for `t` is final. -/
def task_finalized (s : Sys) (t : String) : Prop :=
  ∀ i w, s.ws.get? i = some w → w.task = t → w.phase.isPending = false

/-- Phases at or after the body invocation. -/
def postInvoke : Phase → Bool
  | .inBody => true
  | .sending => true
  | .signaling => true
  | .unlocking => true
  | .dead => true
  | _ => false

/-- The inductive invariant of the executor.  `uniq` is mutual exclusion (the
per-task mutex), the `owner` fields capture that `done` is claimed exactly once,
the permit fields capture the semaphore discipline, `waiting_wf`/`recvd_content`
capture what a received dependency result means, and
`invoked_deps`/`owner_past`/`failure_src` capture the dependency-order and
fail-fast guarantees. -/
structure ExecInv (C : Cfg) (s : Sys) : Prop where
  uniq : ∀ i j wi wj, s.ws.get? i = some wi → s.ws.get? j = some wj →
    wi.phase.isActive = true → wj.phase.isActive = true → wi.task = wj.task → i = j
  active_done : ∀ i w, s.ws.get? i = some w → w.phase.isActive = true →
    s.done w.task = true
  owner_done : ∀ i w, s.ws.get? i = some w → w.owner = true → s.done w.task = true
  owner_uniq : ∀ i j wi wj, s.ws.get? i = some wi → s.ws.get? j = some wj →
    wi.owner = true → wj.owner = true → wi.task = wj.task → i = j
  owner_not_start : ∀ i w, s.ws.get? i = some w → w.owner = true →
    w.phase ≠ .start
  pending_owner : ∀ i w, s.ws.get? i = some w → w.phase.isPending = true →
    w.owner = true
  ever_owner : ∀ i w, s.ws.get? i = some w → w.everInvoked = true → w.owner = true
  ever_post : ∀ i w, s.ws.get? i = some w → w.everInvoked = true →
    postInvoke w.phase = true
  body_ever : ∀ i w, s.ws.get? i = some w → w.phase = .inBody →
    w.everInvoked = true
  invoked_le : ∀ t, s.invoked t ≤ 1
  invoked_zero : ∀ t, (∀ i w, s.ws.get? i = some w → w.task = t →
    w.everInvoked = false) → s.invoked t = 0
  permit_phase : ∀ i w, s.ws.get? i = some w → w.hasPermit = true →
    w.phase = .inBody ∨ w.phase = .sending ∨ w.phase = .signaling
  phase_permit : ∀ i w, s.ws.get? i = some w →
    (w.phase = .inBody ∨ w.phase = .signaling) → w.hasPermit = true
  sem_cap : ∀ k, C.cap = some k → permits s ≤ k
  start_recvd : ∀ i w, s.ws.get? i = some w → w.phase = .start → w.recvd = []
  waiting_wf : ∀ i w pending, s.ws.get? i = some w → w.phase = .waiting pending →
    ((pending.map (task_at s)) ++ (w.recvd.map Prod.fst)).Perm (C.deps w.task) ∧
    (∀ e ∈ w.recvd, e.2 = none) ∧
    (∀ j ∈ pending, ∃ wj, s.ws.get? j = some wj)
  recvd_content : ∀ i w, s.ws.get? i = some w → ∀ e ∈ w.recvd,
    s.done e.1 = true ∧ s.err e.1 = e.2 ∧ task_finalized s e.1
  invoked_deps : ∀ i w, s.ws.get? i = some w →
    (w.phase = .acqSem ∨ w.everInvoked = true) →
    ∀ d ∈ C.deps w.task, s.done d = true ∧ s.err d = none ∧ task_finalized s d
  owner_past : ∀ i w, s.ws.get? i = some w → w.owner = true →
    w.phase.isPending = false → w.everInvoked = true ∨ ∃ e, s.err w.task = some e
  failure_src : ∀ i w, s.ws.get? i = some w → w.owner = true →
    w.phase.isPending = false → w.everInvoked = false →
    ∀ e, s.err w.task = some e →
    ∃ d, d ∈ C.deps w.task ∧ s.done d = true ∧ s.err d = some e ∧
      task_finalized s d
  done_owner : ∀ t, s.done t = true →
    ∃ i w, s.ws.get? i = some w ∧ w.task = t ∧ w.owner = true

/-- The initial state satisfies the invariant: every goroutine is at `start`, no
task is claimed, no permit is out. -/
theorem init_inv (C : Cfg) : ExecInv C (init_sys C) := by
  have hget : ∀ i w, (init_sys C).ws.get? i = some w →
      w.phase = .start ∧ w.hasPermit = false ∧ w.owner = false ∧
      w.everInvoked = false ∧ w.recvd = [] := by
    intro i w h
    unfold init_sys at h
    simp only at h
    rw [List.get?_eq_getElem?, List.getElem?_map] at h
    cases hx : C.roots[i]? with
    | none => rw [hx] at h; cases h
    | some t =>
      rw [hx] at h
      have : spawn_worker t none = w := by
        have := Option.some.inj h
        exact this
      rw [← this]
      exact ⟨rfl, rfl, rfl, rfl, rfl⟩
  refine ⟨?_, ?_, ?_, ?_, ?_, ?_, ?_, ?_, ?_, ?_, ?_, ?_, ?_, ?_, ?_, ?_, ?_,
    ?_, ?_, ?_, ?_⟩
  · intro i j wi wj hi hj hai haj ht
    rw [(hget i wi hi).1] at hai
    cases hai
  · intro i w h ha
    rw [(hget i w h).1] at ha
    cases ha
  · intro i w h ho
    rw [(hget i w h).2.2.1] at ho
    cases ho
  · intro i j wi wj hi hj hoi hoj ht
    rw [(hget i wi hi).2.2.1] at hoi
    cases hoi
  · intro i w h ho
    rw [(hget i w h).2.2.1] at ho
    cases ho
  · intro i w h hp
    rw [(hget i w h).1] at hp
    cases hp
  · intro i w h he
    rw [(hget i w h).2.2.2.1] at he
    cases he
  · intro i w h he
    rw [(hget i w h).2.2.2.1] at he
    cases he
  · intro i w h hb
    rw [(hget i w h).1] at hb
    cases hb
  · intro t
    exact Nat.zero_le 1
  · intro t _
    rfl
  · intro i w h hp
    rw [(hget i w h).2.1] at hp
    cases hp
  · intro i w h hp
    rcases hp with hp | hp <;> rw [(hget i w h).1] at hp <;> cases hp
  · intro k hk
    have : permits (init_sys C) = 0 := by
      unfold permits
      rw [List.length_eq_zero, List.filter_eq_nil_iff]
      intro w hw
      simp only [init_sys] at hw
      rw [List.mem_map] at hw
      obtain ⟨t, _, ht⟩ := hw
      rw [← ht]
      simp [spawn_worker]
    omega
  · intro i w h _
    exact (hget i w h).2.2.2.2
  · intro i w pending h hp
    rw [(hget i w h).1] at hp
    cases hp
  · intro i w h e he
    rw [(hget i w h).2.2.2.2] at he
    cases he
  · intro i w h hp
    rcases hp with hp | hp
    · rw [(hget i w h).1] at hp; cases hp
    · rw [(hget i w h).2.2.2.1] at hp; cases hp
  · intro i w h ho
    rw [(hget i w h).2.2.1] at ho
    cases ho
  · intro i w h ho
    rw [(hget i w h).2.2.1] at ho
    cases ho
  · intro t ht
    cases ht

/-! ### Preservation of the invariant, one lemma per step -/

theorem set_done_eq (f : String → Bool) (t x : String) :
    set_done f t x = if x = t then true else f x := rfl

theorem set_done_mono {f : String → Bool} {t x : String} (h : f x = true) :
    set_done f t x = true := by
  unfold set_done
  by_cases hx : x = t <;> simp [hx, h]

theorem set_err_other {f : String → Option String} {t : String} {v : Option String}
    {x : String} (h : x ≠ t) : set_err f t v x = f x := by
  unfold set_err
  simp [h]

theorem set_err_self (f : String → Option String) (t : String) (v : Option String) :
    set_err f t v t = v := by
  unfold set_err
  simp

theorem inv_claim_owner (C : Cfg) (s : Sys) (i : Nat) (w : Worker)
    (hw : s.ws.get? i = some w) (hph : w.phase = .start)
    (hfree : lock_free s i w.task) (hdone : s.done w.task = false)
    (hinv : ExecInv C s) :
    ExecInv C { s with
      done := set_done s.done w.task,
      ws := (s.ws.set i { w with
          phase := .waiting ((List.range (C.deps w.task).length).map
            (fun x => s.ws.length + x)),
          owner := true })
        ++ (C.deps w.task).map (fun d => spawn_worker d (some i)) } := by
  have hwO : w.owner = false := by
    by_contra hc
    have h1 := hinv.owner_done i w hw (by revert hc; cases w.owner <;> simp)
    rw [hdone] at h1
    cases h1
  have hwE : w.everInvoked = false := by
    by_contra hc
    have h1 := hinv.ever_post i w hw (by revert hc; cases w.everInvoked <;> simp)
    rw [hph] at h1
    cases h1
  have hwP : w.hasPermit = false := by
    by_contra hc
    rcases hinv.permit_phase i w hw (by revert hc; cases w.hasPermit <;> simp)
      with h1 | h1 | h1 <;> rw [hph] at h1 <;> cases h1
  have hwR : w.recvd = [] := hinv.start_recvd i w hw hph
  have hilt : i < s.ws.length := get?_some_lt hw
  set t := w.task with ht
  set pend : List Nat := (List.range (C.deps t).length).map
    (fun x => s.ws.length + x) with hpend
  set w' : Worker := { w with phase := .waiting pend, owner := true } with hw'
  set ext : List Worker := (C.deps t).map (fun d => spawn_worker d (some i))
    with hext
  set s' : Sys := { s with done := set_done s.done t, ws := (s.ws.set i w') ++ ext }
    with hs'
  have hws' : s'.ws = (s.ws.set i w') ++ ext := rfl
  have hself : s'.ws.get? i = some w' := by
    rw [hws']
    exact get?_still_append _ (get?_set_self _ _ _ hilt)
  have hold : ∀ j wj, j ≠ i → s.ws.get? j = some wj → s'.ws.get? j = some wj := by
    intro j wj hne hj
    rw [hws']
    exact get?_still_append _ (get?_still_set hj hne)
  have hlook : ∀ j wj, s'.ws.get? j = some wj →
      (j = i ∧ wj = w') ∨
      (j ≠ i ∧ s.ws.get? j = some wj) ∨
      (∃ d, d ∈ C.deps t ∧ wj = spawn_worker d (some i)) := by
    intro j wj hj
    rw [hws'] at hj
    rcases get?_append_cases _ _ _ _ hj with ⟨hlt, hj2⟩ | ⟨x, hx, hj2⟩
    · rcases get?_set_cases _ _ _ _ _ hj2 with ⟨he, hwj⟩ | ⟨hne, hj3⟩
      · exact Or.inl ⟨he, hwj⟩
      · exact Or.inr (Or.inl ⟨hne, hj3⟩)
    · right; right
      have hmem : wj ∈ ext := List.get?_mem hj2
      rw [hext, List.mem_map] at hmem
      obtain ⟨d, hd, hsp⟩ := hmem
      exact ⟨d, hd, hsp.symm⟩
  -- spawned workers are inert
  have hspawn : ∀ d pa, (spawn_worker d pa).phase = .start ∧
      (spawn_worker d pa).hasPermit = false ∧ (spawn_worker d pa).owner = false ∧
      (spawn_worker d pa).everInvoked = false ∧ (spawn_worker d pa).recvd = [] :=
    fun d pa => ⟨rfl, rfl, rfl, rfl, rfl⟩
  -- done in the new state
  have hdone'1 : s'.done t = true := by
    show set_done s.done t t = true
    unfold set_done
    simp
  have hdone'2 : ∀ x, s.done x = true → s'.done x = true := fun x hx =>
    set_done_mono hx
  have hdone'3 : ∀ x, s'.done x = true → x = t ∨ s.done x = true := by
    intro x hx
    by_cases hxt : x = t
    · exact Or.inl hxt
    · right
      have : set_done s.done t x = s.done x := by unfold set_done; simp [hxt]
      rw [← this]
      exact hx
  -- err unchanged
  have herr : s'.err = s.err := rfl
  -- task_at for existing workers is unchanged
  have htask : ∀ j, (∃ wj, s.ws.get? j = some wj) → task_at s' j = task_at s j := by
    intro j hj
    obtain ⟨wj, hj⟩ := hj
    unfold task_at
    by_cases hji : j = i
    · subst hji
      rw [hself, hj]
      rw [hw] at hj
      show w.task = wj.task
      exact congrArg Worker.task (Option.some.inj hj)
    · rw [hold j wj hji hj, hj]
  -- the tasks of the new pending list are exactly the dependency list
  have hpend_tasks : pend.map (task_at s') = C.deps t := by
    rw [hpend, List.map_map]
    apply List.ext_getElem?
    intro n
    rw [List.getElem?_map]
    by_cases hn : n < (C.deps t).length
    · rw [List.getElem?_range (by simpa using hn)]
      show some (task_at s' (s.ws.length + n)) = (C.deps t)[n]?
      have : task_at s' (s.ws.length + n) = (C.deps t)[n]?.getD "" := by
        unfold task_at
        rw [hws']
        have hlen : (s.ws.set i w').length = s.ws.length := by
          rw [List.length_set]
        rw [← hlen, get?_append_r]
        rw [hext, List.get?_eq_getElem?, List.getElem?_map]
        cases hd : (C.deps t)[n]? with
        | none =>
          rw [List.getElem?_eq_none_iff] at hd
          omega
        | some d => rfl
      rw [this]
      cases hd : (C.deps t)[n]? with
      | none =>
        rw [List.getElem?_eq_none_iff] at hd
        omega
      | some d => rfl
    · rw [List.getElem?_eq_none (by simpa using hn),
        List.getElem?_eq_none (by omega)]
      rfl
  -- pending workers of the new owner exist
  have hpend_ex : ∀ j, j ∈ pend → ∃ wj, s'.ws.get? j = some wj := by
    intro j hj
    rw [hpend, List.mem_map] at hj
    obtain ⟨x, hx, hxe⟩ := hj
    rw [List.mem_range] at hx
    refine ⟨spawn_worker ((C.deps t).get ⟨x, hx⟩) (some i), ?_⟩
    rw [← hxe, hws']
    have hlen : (s.ws.set i w').length = s.ws.length := List.length_set _ _ _
    rw [← hlen, get?_append_r, hext, List.get?_eq_getElem?, List.getElem?_map,
      List.getElem?_eq_getElem hx]
    rfl
  refine ⟨?_, ?_, ?_, ?_, ?_, ?_, ?_, ?_, ?_, ?_, ?_, ?_, ?_, ?_, ?_, ?_, ?_,
    ?_, ?_, ?_, ?_⟩
  · -- uniq
    intro a b wa wb ha hb haa hab htt
    rcases hlook a wa ha with ⟨hai, hwa⟩ | ⟨hai, ha2⟩ | ⟨d, hd, hwa⟩ <;>
      rcases hlook b wb hb with ⟨hbi, hwb⟩ | ⟨hbi, hb2⟩ | ⟨d2, hd2, hwb⟩
    · rw [hai, hbi]
    · -- a = i is the new owner, b is an old worker: b must be inactive for t
      subst hwa
      have : wb.task = t := by rw [← htt]
      have := hfree b wb hb2 this hbi
      rw [this] at hab
      cases hab
    · subst hwb
      rw [show (spawn_worker d2 (some i)).phase = .start from rfl] at hab
      cases hab
    · subst hwb
      have : wa.task = t := by rw [htt]
      have := hfree a wa ha2 this hai
      rw [this] at haa
      cases haa
    · exact hinv.uniq a b wa wb ha2 hb2 haa hab htt
    · subst hwb
      rw [show (spawn_worker d2 (some i)).phase = .start from rfl] at hab
      cases hab
    · subst hwa
      rw [show (spawn_worker d (some i)).phase = .start from rfl] at haa
      cases haa
    · subst hwa
      rw [show (spawn_worker d (some i)).phase = .start from rfl] at haa
      cases haa
    · subst hwa
      rw [show (spawn_worker d (some i)).phase = .start from rfl] at haa
      cases haa
  · -- active_done
    intro a wa ha haa
    rcases hlook a wa ha with ⟨hai, hwa⟩ | ⟨hai, ha2⟩ | ⟨d, hd, hwa⟩
    · subst hwa
      exact hdone'1
    · exact hdone'2 _ (hinv.active_done a wa ha2 haa)
    · subst hwa
      rw [show (spawn_worker d (some i)).phase = .start from rfl] at haa
      cases haa
  · -- owner_done
    intro a wa ha hoa
    rcases hlook a wa ha with ⟨hai, hwa⟩ | ⟨hai, ha2⟩ | ⟨d, hd, hwa⟩
    · subst hwa
      exact hdone'1
    · exact hdone'2 _ (hinv.owner_done a wa ha2 hoa)
    · subst hwa
      cases hoa
  · -- owner_uniq
    intro a b wa wb ha hb hoa hob htt
    rcases hlook a wa ha with ⟨hai, hwa⟩ | ⟨hai, ha2⟩ | ⟨d, hd, hwa⟩ <;>
      rcases hlook b wb hb with ⟨hbi, hwb⟩ | ⟨hbi, hb2⟩ | ⟨d2, hd2, hwb⟩
    · rw [hai, hbi]
    · -- b an old owner of t: contradicts done t = false
      subst hwa
      have hbt : wb.task = t := by rw [← htt]
      have := hinv.owner_done b wb hb2 hob
      rw [hbt, hdone] at this
      cases this
    · subst hwb
      cases hob
    · subst hwb
      have hat : wa.task = t := by rw [htt]
      have := hinv.owner_done a wa ha2 hoa
      rw [hat, hdone] at this
      cases this
    · exact hinv.owner_uniq a b wa wb ha2 hb2 hoa hob htt
    · subst hwb
      cases hob
    · subst hwa
      cases hoa
    · subst hwa
      cases hoa
    · subst hwa
      cases hoa
  · -- owner_not_start
    intro a wa ha hoa
    rcases hlook a wa ha with ⟨hai, hwa⟩ | ⟨hai, ha2⟩ | ⟨d, hd, hwa⟩
    · subst hwa
      intro hc
      cases hc
    · exact hinv.owner_not_start a wa ha2 hoa
    · subst hwa
      cases hoa
  · -- pending_owner
    intro a wa ha hpa
    rcases hlook a wa ha with ⟨hai, hwa⟩ | ⟨hai, ha2⟩ | ⟨d, hd, hwa⟩
    · subst hwa
      rfl
    · exact hinv.pending_owner a wa ha2 hpa
    · subst hwa
      cases hpa
  · -- ever_owner
    intro a wa ha hea
    rcases hlook a wa ha with ⟨hai, hwa⟩ | ⟨hai, ha2⟩ | ⟨d, hd, hwa⟩
    · subst hwa
      rw [show w'.everInvoked = w.everInvoked from rfl, hwE] at hea
    · exact hinv.ever_owner a wa ha2 hea
    · subst hwa
      cases hea
  · -- ever_post
    intro a wa ha hea
    rcases hlook a wa ha with ⟨hai, hwa⟩ | ⟨hai, ha2⟩ | ⟨d, hd, hwa⟩
    · subst hwa
      rw [show w'.everInvoked = w.everInvoked from rfl, hwE] at hea
      cases hea
    · exact hinv.ever_post a wa ha2 hea
    · subst hwa
      cases hea
  · -- body_ever
    intro a wa ha hba
    rcases hlook a wa ha with ⟨hai, hwa⟩ | ⟨hai, ha2⟩ | ⟨d, hd, hwa⟩
    · subst hwa
      cases hba
    · exact hinv.body_ever a wa ha2 hba
    · subst hwa
      cases hba
  · -- invoked_le
    exact hinv.invoked_le
  · -- invoked_zero
    intro tx hall
    apply hinv.invoked_zero
    intro a wa ha hta
    by_cases hai : a = i
    · rw [hai, hw] at ha
      have hwwa : w = wa := Option.some.inj ha
      have h2 := hall i w' hself
        (show w'.task = tx by rw [← hta, ← hwwa])
      rw [show w'.everInvoked = w.everInvoked from rfl] at h2
      rw [← hwwa]
      exact h2
    · exact hall a wa (hold a wa hai ha) hta
  · -- permit_phase
    intro a wa ha hpa
    rcases hlook a wa ha with ⟨hai, hwa⟩ | ⟨hai, ha2⟩ | ⟨d, hd, hwa⟩
    · subst hwa
      rw [show w'.hasPermit = w.hasPermit from rfl, hwP] at hpa
      cases hpa
    · exact hinv.permit_phase a wa ha2 hpa
    · subst hwa
      cases hpa
  · -- phase_permit
    intro a wa ha hpa
    rcases hlook a wa ha with ⟨hai, hwa⟩ | ⟨hai, ha2⟩ | ⟨d, hd, hwa⟩
    · subst hwa
      rcases hpa with hpa | hpa <;> cases hpa
    · exact hinv.phase_permit a wa ha2 hpa
    · subst hwa
      rcases hpa with hpa | hpa <;>
        rw [show (spawn_worker d (some i)).phase = .start from rfl] at hpa <;>
        cases hpa
  · -- sem_cap
    intro k hk
    have hperm : permits s' = permits s := by
      unfold permits
      rw [hws', List.filter_append, List.length_append]
      have h1 : ((s.ws.set i w').filter (fun x => x.hasPermit)).length =
          (s.ws.filter (fun x => x.hasPermit)).length :=
        filter_length_set_congr _ s.ws i w' w hw rfl
      have h2 : (ext.filter (fun x => x.hasPermit)).length = 0 := by
        rw [List.length_eq_zero, List.filter_eq_nil_iff]
        intro x hx
        rw [hext, List.mem_map] at hx
        obtain ⟨d, _, hd⟩ := hx
        rw [← hd]
        simp [spawn_worker]
      omega
    rw [hperm]
    exact hinv.sem_cap k hk
  · -- start_recvd
    intro a wa ha hsa
    rcases hlook a wa ha with ⟨hai, hwa⟩ | ⟨hai, ha2⟩ | ⟨d, hd, hwa⟩
    · subst hwa
      cases hsa
    · exact hinv.start_recvd a wa ha2 hsa
    · subst hwa
      rfl
  · -- waiting_wf
    intro a wa pa ha hpa
    rcases hlook a wa ha with ⟨hai, hwa⟩ | ⟨hai, ha2⟩ | ⟨d, hd, hwa⟩
    · subst hwa
      have h0 : Phase.waiting pend = Phase.waiting pa := hpa
      have hpa2 : pa = pend := by
        injection h0 with h1
        exact h1.symm
      subst hpa2
      refine ⟨?_, ?_, ?_⟩
      · rw [show w'.recvd = w.recvd from rfl, hwR]
        simp only [List.map_nil, List.append_nil]
        rw [hpend_tasks]
      · rw [show w'.recvd = w.recvd from rfl, hwR]
        intro e he
        cases he
      · exact hpend_ex
    · obtain ⟨hperm2, hnone, hex⟩ := hinv.waiting_wf a wa pa ha2 hpa
      refine ⟨?_, hnone, ?_⟩
      · have : pa.map (task_at s') = pa.map (task_at s) := by
          apply List.map_congr_left
          intro j hj
          exact htask j (hex j hj)
        rw [this]
        exact hperm2
      · intro j hj
        obtain ⟨wj, hwj⟩ := hex j hj
        by_cases hji : j = i
        · exact ⟨w', by rw [hji]; exact hself⟩
        · exact ⟨wj, hold j wj hji hwj⟩
    · subst hwa
      cases hpa
  · -- recvd_content
    intro a wa ha e he
    rcases hlook a wa ha with ⟨hai, hwa⟩ | ⟨hai, ha2⟩ | ⟨d, hd, hwa⟩
    · subst hwa
      rw [show w'.recvd = w.recvd from rfl, hwR] at he
      cases he
    · obtain ⟨hd1, he1, hfin⟩ := hinv.recvd_content a wa ha2 e he
      have hne : e.1 ≠ t := by
        intro hc
        rw [hc, hdone] at hd1
        cases hd1
      refine ⟨hdone'2 _ hd1, he1, ?_⟩
      intro b wb hb htb
      rcases hlook b wb hb with ⟨hbi, hwb⟩ | ⟨hbi, hb2⟩ | ⟨d2, hd2, hwb⟩
      · subst hwb
        have : t = e.1 := by rw [← htb]
        exact absurd this.symm hne
      · exact hfin b wb hb2 htb
      · subst hwb
        rfl
    · subst hwa
      cases he
  · -- invoked_deps
    intro a wa ha hpa d hd2
    rcases hlook a wa ha with ⟨hai, hwa⟩ | ⟨hai, ha2⟩ | ⟨d2, hdm, hwa⟩
    · subst hwa
      rcases hpa with hpa | hpa
      · cases hpa
      · rw [show w'.everInvoked = w.everInvoked from rfl, hwE] at hpa
        cases hpa
    · obtain ⟨hd1, he1, hfin⟩ := hinv.invoked_deps a wa ha2 hpa d hd2
      have hne : d ≠ t := by
        intro hc
        rw [hc, hdone] at hd1
        cases hd1
      refine ⟨hdone'2 _ hd1, he1, ?_⟩
      intro b wb hb htb
      rcases hlook b wb hb with ⟨hbi, hwb⟩ | ⟨hbi, hb2⟩ | ⟨d3, hd3, hwb⟩
      · subst hwb
        have : t = d := by rw [← htb]
        exact absurd this.symm hne
      · exact hfin b wb hb2 htb
      · subst hwb
        rfl
    · subst hwa
      rcases hpa with hpa | hpa <;> cases hpa
  · -- owner_past
    intro a wa ha hoa hpa
    rcases hlook a wa ha with ⟨hai, hwa⟩ | ⟨hai, ha2⟩ | ⟨d, hd, hwa⟩
    · subst hwa
      cases hpa
    · exact hinv.owner_past a wa ha2 hoa hpa
    · subst hwa
      cases hoa
  · -- failure_src
    intro a wa ha hoa hpa hea e he
    rcases hlook a wa ha with ⟨hai, hwa⟩ | ⟨hai, ha2⟩ | ⟨d, hd, hwa⟩
    · subst hwa
      cases hpa
    · obtain ⟨d, hdm, hd1, he1, hfin⟩ :=
        hinv.failure_src a wa ha2 hoa hpa hea e he
      have hne : d ≠ t := by
        intro hc
        rw [hc, hdone] at hd1
        cases hd1
      refine ⟨d, hdm, hdone'2 _ hd1, he1, ?_⟩
      intro b wb hb htb
      rcases hlook b wb hb with ⟨hbi, hwb⟩ | ⟨hbi, hb2⟩ | ⟨d3, hd3, hwb⟩
      · subst hwb
        have : t = d := by rw [← htb]
        exact absurd this.symm hne
      · exact hfin b wb hb2 htb
      · subst hwb
        rfl
    · subst hwa
      cases hoa
  · -- done_owner
    intro tx htx
    rcases hdone'3 tx htx with hxt | hx
    · exact ⟨i, w', hself, by rw [hxt], rfl⟩
    · obtain ⟨a, wa, ha, hta, hoa⟩ := hinv.done_owner tx hx
      by_cases hai : a = i
      · subst hai
        rw [hw] at ha
        rw [← Option.some.inj ha] at hoa
        rw [hwO] at hoa
        cases hoa
      · exact ⟨a, wa, hold a wa hai ha, hta, hoa⟩

theorem task_at_set (s s' : Sys) (i : Nat) (w w' : Worker)
    (hw : s.ws.get? i = some w) (ht : w'.task = w.task)
    (hws : s'.ws = s.ws.set i w') (j : Nat) : task_at s' j = task_at s j := by
  unfold task_at
  rw [hws]
  by_cases hj : j = i
  · subst hj
    rw [get?_set_self _ _ _ (get?_some_lt hw), hw]
    exact ht
  · rw [get?_set_other _ _ _ _ hj]

/-- Frame lemma: a step that replaces one goroutine record `w` by `w'` — same task,
same ghost history, both sides outside the receive/body window, no new waiting
phase — and leaves `done`, `err` and `invoked` unchanged preserves the invariant.
This covers the mutex hand-off of an already-done task, the root-channel receive,
the semaphore release and the final unlock. -/
theorem inv_frame_set (C : Cfg) (s s' : Sys) (i : Nat) (w w' : Worker)
    (hw : s.ws.get? i = some w)
    (hws' : s'.ws = s.ws.set i w')
    (hdone' : s'.done = s.done) (herr' : s'.err = s.err)
    (hinvk' : s'.invoked = s.invoked)
    (htask : w'.task = w.task)
    (howner : w'.owner = w.owner)
    (hever : w'.everInvoked = w.everInvoked)
    (hrecvd : w'.recvd = w.recvd)
    (hnp : w.phase.isPending = false)
    (hnp' : w'.phase.isPending = false)
    (hact : w'.phase.isActive = true →
      w.phase.isActive = true ∨ (lock_free s i w.task ∧ s.done w.task = true))
    (hnw' : ∀ p, w'.phase ≠ .waiting p)
    (hpp : w'.hasPermit = true →
      w'.phase = .inBody ∨ w'.phase = .sending ∨ w'.phase = .signaling)
    (hpp2 : (w'.phase = .inBody ∨ w'.phase = .signaling) → w'.hasPermit = true)
    (hnb : w'.phase ≠ .inBody)
    (hns : w'.phase ≠ .start)
    (hep : w.everInvoked = true → postInvoke w'.phase = true)
    (hna : w'.phase ≠ .acqSem)
    (hpm : w'.hasPermit = w.hasPermit ∨
      (w.hasPermit = true ∧ w'.hasPermit = false))
    (hinv : ExecInv C s) : ExecInv C s' := by
  have hself : s'.ws.get? i = some w' := by
    rw [hws']
    exact get?_set_self _ _ _ (get?_some_lt hw)
  have hold : ∀ j wj, j ≠ i → s.ws.get? j = some wj → s'.ws.get? j = some wj := by
    intro j wj hne hj
    rw [hws']
    exact get?_still_set hj hne
  have hlook : ∀ j wj, s'.ws.get? j = some wj →
      (j = i ∧ wj = w') ∨ (j ≠ i ∧ s.ws.get? j = some wj) := by
    intro j wj hj
    rw [hws'] at hj
    exact get?_set_cases _ _ _ _ _ hj
  have htat : ∀ j, task_at s' j = task_at s j :=
    task_at_set s s' i w w' hw htask hws'
  have hfin : ∀ d, task_finalized s d → task_finalized s' d := by
    intro d hf b wb hb htb
    rcases hlook b wb hb with ⟨hbi, hwb⟩ | ⟨hbi, hb2⟩
    · subst hwb
      exact hnp'
    · exact hf b wb hb2 htb
  refine ⟨?_, ?_, ?_, ?_, ?_, ?_, ?_, ?_, ?_, ?_, ?_, ?_, ?_, ?_, ?_, ?_, ?_,
    ?_, ?_, ?_, ?_⟩
  · -- uniq
    intro a b wa wb ha hb haa hab htt
    rcases hlook a wa ha with ⟨hai, hwa⟩ | ⟨hai, ha2⟩ <;>
      rcases hlook b wb hb with ⟨hbi, hwb⟩ | ⟨hbi, hb2⟩
    · rw [hai, hbi]
    · subst hwa
      have hwa2 : s.ws.get? a = some w := by rw [hai]; exact hw
      rcases hact haa with hwact | ⟨hfree, _⟩
      · exact hinv.uniq a b w wb hwa2 hb2 hwact hab (htask.symm.trans htt)
      · have := hfree b wb hb2 (htt.symm.trans htask) hbi
        rw [this] at hab
        cases hab
    · subst hwb
      have hwb2 : s.ws.get? b = some w := by rw [hbi]; exact hw
      rcases hact hab with hwact | ⟨hfree, _⟩
      · exact hinv.uniq a b wa w ha2 hwb2 haa hwact (htt.trans htask)
      · have := hfree a wa ha2 (htt.trans htask) hai
        rw [this] at haa
        cases haa
    · exact hinv.uniq a b wa wb ha2 hb2 haa hab htt
  · -- active_done
    intro a wa ha haa
    rw [hdone']
    rcases hlook a wa ha with ⟨hai, hwa⟩ | ⟨hai, ha2⟩
    · subst hwa
      rcases hact haa with hwact | ⟨_, hdt⟩
      · rw [htask]
        exact hinv.active_done i w hw hwact
      · rw [htask]
        exact hdt
    · exact hinv.active_done a wa ha2 haa
  · -- owner_done
    intro a wa ha hoa
    rw [hdone']
    rcases hlook a wa ha with ⟨hai, hwa⟩ | ⟨hai, ha2⟩
    · subst hwa
      rw [howner] at hoa
      rw [htask]
      exact hinv.owner_done i w hw hoa
    · exact hinv.owner_done a wa ha2 hoa
  · -- owner_uniq
    intro a b wa wb ha hb hoa hob htt
    rcases hlook a wa ha with ⟨hai, hwa⟩ | ⟨hai, ha2⟩ <;>
      rcases hlook b wb hb with ⟨hbi, hwb⟩ | ⟨hbi, hb2⟩
    · rw [hai, hbi]
    · subst hwa
      rw [howner] at hoa
      have hwa2 : s.ws.get? a = some w := by rw [hai]; exact hw
      exact hinv.owner_uniq a b w wb hwa2 hb2 hoa hob (htask.symm.trans htt)
    · subst hwb
      rw [howner] at hob
      have hwb2 : s.ws.get? b = some w := by rw [hbi]; exact hw
      exact hinv.owner_uniq a b wa w ha2 hwb2 hoa hob (htt.trans htask)
    · exact hinv.owner_uniq a b wa wb ha2 hb2 hoa hob htt
  · -- owner_not_start
    intro a wa ha hoa
    rcases hlook a wa ha with ⟨hai, hwa⟩ | ⟨hai, ha2⟩
    · subst hwa
      exact hns
    · exact hinv.owner_not_start a wa ha2 hoa
  · -- pending_owner
    intro a wa ha hpa
    rcases hlook a wa ha with ⟨hai, hwa⟩ | ⟨hai, ha2⟩
    · subst hwa
      rw [hnp'] at hpa
      cases hpa
    · exact hinv.pending_owner a wa ha2 hpa
  · -- ever_owner
    intro a wa ha hea
    rcases hlook a wa ha with ⟨hai, hwa⟩ | ⟨hai, ha2⟩
    · subst hwa
      rw [hever] at hea
      rw [howner]
      exact hinv.ever_owner i w hw hea
    · exact hinv.ever_owner a wa ha2 hea
  · -- ever_post
    intro a wa ha hea
    rcases hlook a wa ha with ⟨hai, hwa⟩ | ⟨hai, ha2⟩
    · subst hwa
      rw [hever] at hea
      exact hep hea
    · exact hinv.ever_post a wa ha2 hea
  · -- body_ever
    intro a wa ha hba
    rcases hlook a wa ha with ⟨hai, hwa⟩ | ⟨hai, ha2⟩
    · subst hwa
      exact absurd hba hnb
    · exact hinv.body_ever a wa ha2 hba
  · -- invoked_le
    intro tx
    rw [hinvk']
    exact hinv.invoked_le tx
  · -- invoked_zero
    intro tx hall
    rw [hinvk']
    apply hinv.invoked_zero
    intro a wa ha hta
    by_cases hai : a = i
    · rw [hai, hw] at ha
      have hwwa : w = wa := Option.some.inj ha
      have h2 := hall i w' hself (by rw [htask, ← hta, ← hwwa])
      rw [hever] at h2
      rw [← hwwa]
      exact h2
    · exact hall a wa (hold a wa hai ha) hta
  · -- permit_phase
    intro a wa ha hpa
    rcases hlook a wa ha with ⟨hai, hwa⟩ | ⟨hai, ha2⟩
    · subst hwa
      exact hpp hpa
    · exact hinv.permit_phase a wa ha2 hpa
  · -- phase_permit
    intro a wa ha hpa
    rcases hlook a wa ha with ⟨hai, hwa⟩ | ⟨hai, ha2⟩
    · subst hwa
      exact hpp2 hpa
    · exact hinv.phase_permit a wa ha2 hpa
  · -- sem_cap
    intro k hk
    have hle : permits s' ≤ permits s := by
      unfold permits
      rw [hws']
      rcases hpm with hpm | ⟨hp1, hp2⟩
      · rw [filter_length_set_congr _ s.ws i w' w hw hpm.symm]
      · have := filter_length_set_down (fun x => x.hasPermit) s.ws i w' w hw hp1
          hp2
        omega
    exact le_trans hle (hinv.sem_cap k hk)
  · -- start_recvd
    intro a wa ha hsa
    rcases hlook a wa ha with ⟨hai, hwa⟩ | ⟨hai, ha2⟩
    · subst hwa
      exact absurd hsa hns
    · exact hinv.start_recvd a wa ha2 hsa
  · -- waiting_wf
    intro a wa pa ha hpa
    rcases hlook a wa ha with ⟨hai, hwa⟩ | ⟨hai, ha2⟩
    · subst hwa
      exact absurd hpa (hnw' pa)
    · obtain ⟨hperm2, hnone, hex⟩ := hinv.waiting_wf a wa pa ha2 hpa
      refine ⟨?_, hnone, ?_⟩
      · have : pa.map (task_at s') = pa.map (task_at s) :=
          List.map_congr_left (fun j _ => htat j)
        rw [this]
        exact hperm2
      · intro j hj
        obtain ⟨wj, hwj⟩ := hex j hj
        by_cases hji : j = i
        · exact ⟨w', by rw [hji]; exact hself⟩
        · exact ⟨wj, hold j wj hji hwj⟩
  · -- recvd_content
    intro a wa ha e he
    rcases hlook a wa ha with ⟨hai, hwa⟩ | ⟨hai, ha2⟩
    · subst hwa
      rw [hrecvd] at he
      obtain ⟨h1, h2, h3⟩ := hinv.recvd_content i w hw e he
      rw [hdone', herr']
      exact ⟨h1, h2, hfin _ h3⟩
    · obtain ⟨h1, h2, h3⟩ := hinv.recvd_content a wa ha2 e he
      rw [hdone', herr']
      exact ⟨h1, h2, hfin _ h3⟩
  · -- invoked_deps
    intro a wa ha hpa d hd
    rcases hlook a wa ha with ⟨hai, hwa⟩ | ⟨hai, ha2⟩
    · subst hwa
      rcases hpa with hpa | hpa
      · exact absurd hpa hna
      · rw [hever] at hpa
        have := hinv.invoked_deps i w hw (Or.inr hpa) d (by rw [← htask]; exact hd)
        rw [hdone', herr']
        exact ⟨this.1, this.2.1, hfin _ this.2.2⟩
    · have := hinv.invoked_deps a wa ha2 hpa d hd
      rw [hdone', herr']
      exact ⟨this.1, this.2.1, hfin _ this.2.2⟩
  · -- owner_past
    intro a wa ha hoa hpa
    rcases hlook a wa ha with ⟨hai, hwa⟩ | ⟨hai, ha2⟩
    · subst hwa
      rw [howner] at hoa
      rw [hever, herr', htask]
      exact hinv.owner_past i w hw hoa hnp
    · rw [herr']
      exact hinv.owner_past a wa ha2 hoa hpa
  · -- failure_src
    intro a wa ha hoa hpa hea e he
    rcases hlook a wa ha with ⟨hai, hwa⟩ | ⟨hai, ha2⟩
    · subst hwa
      rw [howner] at hoa
      rw [hever] at hea
      rw [herr', htask] at he
      obtain ⟨d, hd1, hd2, hd3, hd4⟩ := hinv.failure_src i w hw hoa hnp hea e he
      rw [htask, hdone', herr']
      exact ⟨d, hd1, hd2, hd3, hfin _ hd4⟩
    · rw [herr'] at he
      obtain ⟨d, hd1, hd2, hd3, hd4⟩ := hinv.failure_src a wa ha2 hoa hpa hea e he
      rw [hdone', herr']
      exact ⟨d, hd1, hd2, hd3, hfin _ hd4⟩
  · -- done_owner
    intro tx htx
    rw [hdone'] at htx
    obtain ⟨a, wa, ha, hta, hoa⟩ := hinv.done_owner tx htx
    by_cases hai : a = i
    · rw [hai, hw] at ha
      have hwwa : w = wa := Option.some.inj ha
      refine ⟨i, w', hself, ?_, ?_⟩
      · rw [htask, hwwa]
        exact hta
      · rw [howner, hwwa]
        exact hoa
    · exact ⟨a, wa, hold a wa hai ha, hta, hoa⟩

/-- Preservation under `claim_done`: the task was already done, the goroutine
moves straight to sending the recorded error. -/
theorem inv_claim_done (C : Cfg) (s : Sys) (i : Nat) (w : Worker)
    (hw : s.ws.get? i = some w) (hph : w.phase = .start)
    (hfree : lock_free s i w.task) (hdone : s.done w.task = true)
    (hinv : ExecInv C s) :
    ExecInv C { s with ws := s.ws.set i { w with phase := .sending } } := by
  refine inv_frame_set C s _ i w { w with phase := .sending } hw rfl rfl rfl rfl
    rfl rfl rfl rfl (by rw [hph]; rfl) rfl ?_ ?_ ?_ ?_ ?_ ?_ ?_ ?_ (Or.inl rfl)
    hinv
  · intro _
    exact Or.inr ⟨hfree, hdone⟩
  · intro p h
    cases h
  · intro _
    exact Or.inr (Or.inl rfl)
  · intro h
    rcases h with h | h <;> cases h
  · intro h
    cases h
  · intro h
    cases h
  · intro _
    rfl
  · intro h
    cases h

/-- Preservation under `recv_root`: the collector drains one root result; the
sender proceeds to its deferred calls. -/
theorem inv_recv_root (C : Cfg) (s : Sys) (j : Nat) (wj : Worker)
    (hwj : s.ws.get? j = some wj) (hpar : wj.parent = none)
    (hsend : wj.phase = .sending) (hinv : ExecInv C s) :
    ExecInv C { s with
      rootRecvd := s.rootRecvd ++ [(wj.task, s.err wj.task)],
      ws := s.ws.set j { wj with phase := if wj.hasPermit then .signaling
                                          else .unlocking } } := by
  refine inv_frame_set C s _ j wj
    { wj with phase := if wj.hasPermit then .signaling else .unlocking } hwj rfl
    rfl rfl rfl rfl rfl rfl rfl (by rw [hsend]; rfl) ?_ ?_ ?_ ?_ ?_ ?_ ?_ ?_ ?_
    (Or.inl rfl) hinv
  · by_cases hh : wj.hasPermit <;> simp [hh, Phase.isPending]
  · intro _
    exact Or.inl (by rw [hsend]; rfl)
  · intro p
    by_cases hh : wj.hasPermit <;> simp [hh]
  · intro hp
    right
    right
    show (if wj.hasPermit = true then Phase.signaling else Phase.unlocking) =
        Phase.signaling
    rw [if_pos hp]
  · intro h
    by_cases hh : wj.hasPermit
    · exact hh
    · simp [hh] at h
  · show (if wj.hasPermit then Phase.signaling else Phase.unlocking) ≠ _
    by_cases hh : wj.hasPermit <;> simp [hh]
  · show (if wj.hasPermit then Phase.signaling else Phase.unlocking) ≠ _
    by_cases hh : wj.hasPermit <;> simp [hh]
  · intro _
    show postInvoke (if wj.hasPermit then Phase.signaling else Phase.unlocking) =
        true
    by_cases hh : wj.hasPermit <;> simp [postInvoke, hh]
  · show (if wj.hasPermit then Phase.signaling else Phase.unlocking) ≠ _
    by_cases hh : wj.hasPermit <;> simp [hh]

/-- Preservation under `signal`: the deferred semaphore release. -/
theorem inv_signal (C : Cfg) (s : Sys) (i : Nat) (w : Worker)
    (hw : s.ws.get? i = some w) (hph : w.phase = .signaling)
    (hinv : ExecInv C s) :
    ExecInv C { s with
      ws := s.ws.set i { w with phase := .unlocking, hasPermit := false } } := by
  refine inv_frame_set C s _ i w { w with phase := .unlocking, hasPermit := false }
    hw rfl rfl rfl rfl rfl rfl rfl rfl (by rw [hph]; rfl) rfl ?_ ?_ ?_ ?_ ?_ ?_ ?_
    ?_ (Or.inr ⟨hinv.phase_permit i w hw (Or.inr hph), rfl⟩) hinv
  · intro _
    exact Or.inl (by rw [hph]; rfl)
  · intro p h
    cases h
  · intro h
    cases h
  · intro h
    rcases h with h | h <;> cases h
  · intro h
    cases h
  · intro h
    cases h
  · intro _
    rfl
  · intro h
    cases h

/-- Preservation under `unlock`: the deferred mutex release; the goroutine dies. -/
theorem inv_unlock (C : Cfg) (s : Sys) (i : Nat) (w : Worker)
    (hw : s.ws.get? i = some w) (hph : w.phase = .unlocking)
    (hinv : ExecInv C s) :
    ExecInv C { s with ws := s.ws.set i { w with phase := .dead } } := by
  refine inv_frame_set C s _ i w { w with phase := .dead } hw rfl rfl rfl rfl rfl
    rfl rfl rfl (by rw [hph]; rfl) rfl ?_ ?_ ?_ ?_ ?_ ?_ ?_ ?_ (Or.inl rfl) hinv
  · intro h
    cases h
  · intro p h
    cases h
  · intro hp
    have := hinv.permit_phase i w hw hp
    rw [hph] at this
    rcases this with h | h | h <;> cases h
  · intro h
    rcases h with h | h <;> cases h
  · intro h
    cases h
  · intro h
    cases h
  · intro _
    rfl
  · intro h
    cases h

/-- Preservation under `deps_ok`: all dependency results were collected with no
failure; the goroutine falls through to the semaphore.  The receive-loop summary
`waiting_wf`/`recvd_content` is converted into the `invoked_deps` guarantee. -/
theorem inv_deps_ok (C : Cfg) (s : Sys) (i : Nat) (w : Worker)
    (hw : s.ws.get? i = some w) (hph : w.phase = .waiting [])
    (hinv : ExecInv C s) :
    ExecInv C { s with ws := s.ws.set i { w with phase := .acqSem } } := by
  have hwO : w.owner = true := hinv.pending_owner i w hw (by rw [hph]; rfl)
  have hwE : w.everInvoked = false := by
    by_contra hc
    have h1 := hinv.ever_post i w hw (by revert hc; cases w.everInvoked <;> simp)
    rw [hph] at h1
    cases h1
  have hwP : w.hasPermit = false := by
    by_contra hc
    rcases hinv.permit_phase i w hw (by revert hc; cases w.hasPermit <;> simp)
      with h1 | h1 | h1 <;> rw [hph] at h1 <;> cases h1
  have hwpend : w.phase.isPending = true := by rw [hph]; rfl
  set w' : Worker := { w with phase := .acqSem } with hw'
  set s' : Sys := { s with ws := s.ws.set i w' } with hs'
  have hws' : s'.ws = s.ws.set i w' := rfl
  have hself : s'.ws.get? i = some w' := by
    rw [hws']
    exact get?_set_self _ _ _ (get?_some_lt hw)
  have hold : ∀ j wj, j ≠ i → s.ws.get? j = some wj → s'.ws.get? j = some wj := by
    intro j wj hne hj
    rw [hws']
    exact get?_still_set hj hne
  have hlook : ∀ j wj, s'.ws.get? j = some wj →
      (j = i ∧ wj = w') ∨ (j ≠ i ∧ s.ws.get? j = some wj) := by
    intro j wj hj
    rw [hws'] at hj
    exact get?_set_cases _ _ _ _ _ hj
  have htat : ∀ j, task_at s' j = task_at s j :=
    task_at_set s s' i w w' hw rfl hws'
  have hfin : ∀ d, task_finalized s d → task_finalized s' d := by
    intro d hf b wb hb htb
    rcases hlook b wb hb with ⟨hbi, hwb⟩ | ⟨hbi, hb2⟩
    · subst hwb
      have : w.task ≠ d := by
        intro hc
        have := hf i w hw hc
        rw [hwpend] at this
        cases this
      exact absurd htb this
    · exact hf b wb hb2 htb
  -- the collected results cover every dependency
  obtain ⟨hperm, hnone, _⟩ := hinv.waiting_wf i w [] hw hph
  have hcover : ∀ d ∈ C.deps w.task, ∃ e, e ∈ w.recvd ∧ e.1 = d := by
    intro d hd
    have hd2 : d ∈ w.recvd.map Prod.fst := by
      have := hperm.mem_iff.mpr hd
      simpa using this
    rw [List.mem_map] at hd2
    obtain ⟨e, he1, he2⟩ := hd2
    exact ⟨e, he1, he2⟩
  have hdeps : ∀ d ∈ C.deps w.task,
      s.done d = true ∧ s.err d = none ∧ task_finalized s d := by
    intro d hd
    obtain ⟨e, he1, he2⟩ := hcover d hd
    obtain ⟨h1, h2, h3⟩ := hinv.recvd_content i w hw e he1
    rw [he2] at h1 h2 h3
    rw [hnone e he1] at h2
    exact ⟨h1, h2, h3⟩
  refine ⟨?_, ?_, ?_, ?_, ?_, ?_, ?_, ?_, ?_, ?_, ?_, ?_, ?_, ?_, ?_, ?_, ?_,
    ?_, ?_, ?_, ?_⟩
  · -- uniq
    intro a b wa wb ha hb haa hab htt
    rcases hlook a wa ha with ⟨hai, hwa⟩ | ⟨hai, ha2⟩ <;>
      rcases hlook b wb hb with ⟨hbi, hwb⟩ | ⟨hbi, hb2⟩
    · rw [hai, hbi]
    · subst hwa
      have hwa2 : s.ws.get? a = some w := by rw [hai]; exact hw
      exact hinv.uniq a b w wb hwa2 hb2 (by rw [hph]; rfl) hab htt
    · subst hwb
      have hwb2 : s.ws.get? b = some w := by rw [hbi]; exact hw
      exact hinv.uniq a b wa w ha2 hwb2 haa (by rw [hph]; rfl) htt
    · exact hinv.uniq a b wa wb ha2 hb2 haa hab htt
  · -- active_done
    intro a wa ha haa
    rcases hlook a wa ha with ⟨hai, hwa⟩ | ⟨hai, ha2⟩
    · subst hwa
      exact hinv.active_done i w hw (by rw [hph]; rfl)
    · exact hinv.active_done a wa ha2 haa
  · -- owner_done
    intro a wa ha hoa
    rcases hlook a wa ha with ⟨hai, hwa⟩ | ⟨hai, ha2⟩
    · subst hwa
      exact hinv.owner_done i w hw hoa
    · exact hinv.owner_done a wa ha2 hoa
  · -- owner_uniq
    intro a b wa wb ha hb hoa hob htt
    rcases hlook a wa ha with ⟨hai, hwa⟩ | ⟨hai, ha2⟩ <;>
      rcases hlook b wb hb with ⟨hbi, hwb⟩ | ⟨hbi, hb2⟩
    · rw [hai, hbi]
    · subst hwa
      have hwa2 : s.ws.get? a = some w := by rw [hai]; exact hw
      exact hinv.owner_uniq a b w wb hwa2 hb2 hoa hob htt
    · subst hwb
      have hwb2 : s.ws.get? b = some w := by rw [hbi]; exact hw
      exact hinv.owner_uniq a b wa w ha2 hwb2 hoa hob htt
    · exact hinv.owner_uniq a b wa wb ha2 hb2 hoa hob htt
  · -- owner_not_start
    intro a wa ha hoa
    rcases hlook a wa ha with ⟨hai, hwa⟩ | ⟨hai, ha2⟩
    · subst hwa
      intro hc
      cases hc
    · exact hinv.owner_not_start a wa ha2 hoa
  · -- pending_owner
    intro a wa ha hpa
    rcases hlook a wa ha with ⟨hai, hwa⟩ | ⟨hai, ha2⟩
    · subst hwa
      exact hwO
    · exact hinv.pending_owner a wa ha2 hpa
  · -- ever_owner
    intro a wa ha hea
    rcases hlook a wa ha with ⟨hai, hwa⟩ | ⟨hai, ha2⟩
    · subst hwa
      exact hinv.ever_owner i w hw hea
    · exact hinv.ever_owner a wa ha2 hea
  · -- ever_post
    intro a wa ha hea
    rcases hlook a wa ha with ⟨hai, hwa⟩ | ⟨hai, ha2⟩
    · subst hwa
      have : w.everInvoked = true := hea
      rw [hwE] at this
      cases this
    · exact hinv.ever_post a wa ha2 hea
  · -- body_ever
    intro a wa ha hba
    rcases hlook a wa ha with ⟨hai, hwa⟩ | ⟨hai, ha2⟩
    · subst hwa
      cases hba
    · exact hinv.body_ever a wa ha2 hba
  · -- invoked_le
    intro tx
    exact hinv.invoked_le tx
  · -- invoked_zero
    intro tx hall
    apply hinv.invoked_zero
    intro a wa ha hta
    by_cases hai : a = i
    · rw [hai, hw] at ha
      have hwwa : w = wa := Option.some.inj ha
      have h2 := hall i w' hself (by rw [← hta, ← hwwa])
      rw [← hwwa]
      exact h2
    · exact hall a wa (hold a wa hai ha) hta
  · -- permit_phase
    intro a wa ha hpa
    rcases hlook a wa ha with ⟨hai, hwa⟩ | ⟨hai, ha2⟩
    · subst hwa
      have : w.hasPermit = true := hpa
      rw [hwP] at this
      cases this
    · exact hinv.permit_phase a wa ha2 hpa
  · -- phase_permit
    intro a wa ha hpa
    rcases hlook a wa ha with ⟨hai, hwa⟩ | ⟨hai, ha2⟩
    · subst hwa
      rcases hpa with hpa | hpa <;> cases hpa
    · exact hinv.phase_permit a wa ha2 hpa
  · -- sem_cap
    intro k hk
    have : permits s' = permits s := by
      unfold permits
      rw [hws']
      exact filter_length_set_congr _ s.ws i w' w hw rfl
    rw [this]
    exact hinv.sem_cap k hk
  · -- start_recvd
    intro a wa ha hsa
    rcases hlook a wa ha with ⟨hai, hwa⟩ | ⟨hai, ha2⟩
    · subst hwa
      cases hsa
    · exact hinv.start_recvd a wa ha2 hsa
  · -- waiting_wf
    intro a wa pa ha hpa
    rcases hlook a wa ha with ⟨hai, hwa⟩ | ⟨hai, ha2⟩
    · subst hwa
      cases hpa
    · obtain ⟨hperm2, hnone2, hex2⟩ := hinv.waiting_wf a wa pa ha2 hpa
      refine ⟨?_, hnone2, ?_⟩
      · have : pa.map (task_at s') = pa.map (task_at s) :=
          List.map_congr_left (fun j _ => htat j)
        rw [this]
        exact hperm2
      · intro j hj
        obtain ⟨wj, hwj⟩ := hex2 j hj
        by_cases hji : j = i
        · exact ⟨w', by rw [hji]; exact hself⟩
        · exact ⟨wj, hold j wj hji hwj⟩
  · -- recvd_content
    intro a wa ha e he
    rcases hlook a wa ha with ⟨hai, hwa⟩ | ⟨hai, ha2⟩
    · subst hwa
      obtain ⟨h1, h2, h3⟩ := hinv.recvd_content i w hw e he
      exact ⟨h1, h2, hfin _ h3⟩
    · obtain ⟨h1, h2, h3⟩ := hinv.recvd_content a wa ha2 e he
      exact ⟨h1, h2, hfin _ h3⟩
  · -- invoked_deps
    intro a wa ha hpa d hd
    rcases hlook a wa ha with ⟨hai, hwa⟩ | ⟨hai, ha2⟩
    · subst hwa
      obtain ⟨h1, h2, h3⟩ := hdeps d hd
      exact ⟨h1, h2, hfin _ h3⟩
    · obtain ⟨h1, h2, h3⟩ := hinv.invoked_deps a wa ha2 hpa d hd
      exact ⟨h1, h2, hfin _ h3⟩
  · -- owner_past
    intro a wa ha hoa hpa
    rcases hlook a wa ha with ⟨hai, hwa⟩ | ⟨hai, ha2⟩
    · subst hwa
      cases hpa
    · exact hinv.owner_past a wa ha2 hoa hpa
  · -- failure_src
    intro a wa ha hoa hpa hea e he
    rcases hlook a wa ha with ⟨hai, hwa⟩ | ⟨hai, ha2⟩
    · subst hwa
      cases hpa
    · obtain ⟨d, hd1, hd2, hd3, hd4⟩ := hinv.failure_src a wa ha2 hoa hpa hea e he
      exact ⟨d, hd1, hd2, hd3, hfin _ hd4⟩
  · -- done_owner
    intro tx htx
    obtain ⟨a, wa, ha, hta, hoa⟩ := hinv.done_owner tx htx
    by_cases hai : a = i
    · rw [hai, hw] at ha
      have hwwa : w = wa := Option.some.inj ha
      exact ⟨i, w', hself, by rw [← hta, ← hwwa], by rw [← hwwa] at hoa; exact hoa⟩
    · exact ⟨a, wa, hold a wa hai ha, hta, hoa⟩

/-- Preservation under `acquire`: the semaphore permit is taken and the body
invocation begins.  The ghost counter `invoked` stays at most one because no
goroutine for this task has ever invoked the body before (mutual exclusion of
owners plus the phase discipline). -/
theorem inv_acquire (C : Cfg) (s : Sys) (i : Nat) (w : Worker)
    (hw : s.ws.get? i = some w) (hph : w.phase = .acqSem)
    (hcap : ∀ k, C.cap = some k → permits s < k) (hinv : ExecInv C s) :
    ExecInv C { s with
      invoked := bump s.invoked w.task,
      ws := s.ws.set i { w with phase := .inBody, hasPermit := true,
                                everInvoked := true } } := by
  have hwO : w.owner = true := hinv.pending_owner i w hw (by rw [hph]; rfl)
  have hwP : w.hasPermit = false := by
    by_contra hc
    rcases hinv.permit_phase i w hw (by revert hc; cases w.hasPermit <;> simp)
      with h1 | h1 | h1 <;> rw [hph] at h1 <;> cases h1
  have hwpend : w.phase.isPending = true := by rw [hph]; rfl
  have hnever : ∀ a wa, s.ws.get? a = some wa → wa.task = w.task →
      wa.everInvoked = false := by
    intro a wa ha hta
    by_contra hc
    have hea : wa.everInvoked = true := by revert hc; cases wa.everInvoked <;> simp
    have hoa := hinv.ever_owner a wa ha hea
    have hai : a = i := hinv.owner_uniq a i wa w ha hw hoa hwO hta
    rw [hai, hw] at ha
    have hwwa : w = wa := Option.some.inj ha
    have := hinv.ever_post i w hw (by rw [hwwa]; exact hea)
    rw [hph] at this
    cases this
  set w' : Worker := { w with phase := .inBody, hasPermit := true,
                              everInvoked := true } with hw'
  set s' : Sys := { s with invoked := bump s.invoked w.task,
                           ws := s.ws.set i w' } with hs'
  have hws' : s'.ws = s.ws.set i w' := rfl
  have hself : s'.ws.get? i = some w' := by
    rw [hws']
    exact get?_set_self _ _ _ (get?_some_lt hw)
  have hold : ∀ j wj, j ≠ i → s.ws.get? j = some wj → s'.ws.get? j = some wj := by
    intro j wj hne hj
    rw [hws']
    exact get?_still_set hj hne
  have hlook : ∀ j wj, s'.ws.get? j = some wj →
      (j = i ∧ wj = w') ∨ (j ≠ i ∧ s.ws.get? j = some wj) := by
    intro j wj hj
    rw [hws'] at hj
    exact get?_set_cases _ _ _ _ _ hj
  have htat : ∀ j, task_at s' j = task_at s j :=
    task_at_set s s' i w w' hw rfl hws'
  have hfin : ∀ d, task_finalized s d → task_finalized s' d := by
    intro d hf b wb hb htb
    rcases hlook b wb hb with ⟨hbi, hwb⟩ | ⟨hbi, hb2⟩
    · subst hwb
      have : w.task ≠ d := by
        intro hc
        have := hf i w hw hc
        rw [hwpend] at this
        cases this
      exact absurd htb this
    · exact hf b wb hb2 htb
  refine ⟨?_, ?_, ?_, ?_, ?_, ?_, ?_, ?_, ?_, ?_, ?_, ?_, ?_, ?_, ?_, ?_, ?_,
    ?_, ?_, ?_, ?_⟩
  · -- uniq
    intro a b wa wb ha hb haa hab htt
    rcases hlook a wa ha with ⟨hai, hwa⟩ | ⟨hai, ha2⟩ <;>
      rcases hlook b wb hb with ⟨hbi, hwb⟩ | ⟨hbi, hb2⟩
    · rw [hai, hbi]
    · subst hwa
      have hwa2 : s.ws.get? a = some w := by rw [hai]; exact hw
      exact hinv.uniq a b w wb hwa2 hb2 (by rw [hph]; rfl) hab htt
    · subst hwb
      have hwb2 : s.ws.get? b = some w := by rw [hbi]; exact hw
      exact hinv.uniq a b wa w ha2 hwb2 haa (by rw [hph]; rfl) htt
    · exact hinv.uniq a b wa wb ha2 hb2 haa hab htt
  · -- active_done
    intro a wa ha haa
    rcases hlook a wa ha with ⟨hai, hwa⟩ | ⟨hai, ha2⟩
    · subst hwa
      exact hinv.active_done i w hw (by rw [hph]; rfl)
    · exact hinv.active_done a wa ha2 haa
  · -- owner_done
    intro a wa ha hoa
    rcases hlook a wa ha with ⟨hai, hwa⟩ | ⟨hai, ha2⟩
    · subst hwa
      exact hinv.owner_done i w hw hoa
    · exact hinv.owner_done a wa ha2 hoa
  · -- owner_uniq
    intro a b wa wb ha hb hoa hob htt
    rcases hlook a wa ha with ⟨hai, hwa⟩ | ⟨hai, ha2⟩ <;>
      rcases hlook b wb hb with ⟨hbi, hwb⟩ | ⟨hbi, hb2⟩
    · rw [hai, hbi]
    · subst hwa
      have hwa2 : s.ws.get? a = some w := by rw [hai]; exact hw
      exact hinv.owner_uniq a b w wb hwa2 hb2 hoa hob htt
    · subst hwb
      have hwb2 : s.ws.get? b = some w := by rw [hbi]; exact hw
      exact hinv.owner_uniq a b wa w ha2 hwb2 hoa hob htt
    · exact hinv.owner_uniq a b wa wb ha2 hb2 hoa hob htt
  · -- owner_not_start
    intro a wa ha hoa
    rcases hlook a wa ha with ⟨hai, hwa⟩ | ⟨hai, ha2⟩
    · subst hwa
      intro hc
      cases hc
    · exact hinv.owner_not_start a wa ha2 hoa
  · -- pending_owner
    intro a wa ha hpa
    rcases hlook a wa ha with ⟨hai, hwa⟩ | ⟨hai, ha2⟩
    · subst hwa
      exact hwO
    · exact hinv.pending_owner a wa ha2 hpa
  · -- ever_owner
    intro a wa ha hea
    rcases hlook a wa ha with ⟨hai, hwa⟩ | ⟨hai, ha2⟩
    · subst hwa
      exact hwO
    · exact hinv.ever_owner a wa ha2 hea
  · -- ever_post
    intro a wa ha hea
    rcases hlook a wa ha with ⟨hai, hwa⟩ | ⟨hai, ha2⟩
    · subst hwa
      rfl
    · exact hinv.ever_post a wa ha2 hea
  · -- body_ever
    intro a wa ha hba
    rcases hlook a wa ha with ⟨hai, hwa⟩ | ⟨hai, ha2⟩
    · subst hwa
      rfl
    · exact hinv.body_ever a wa ha2 hba
  · -- invoked_le
    intro tx
    show bump s.invoked w.task tx ≤ 1
    unfold bump
    by_cases htx : tx = w.task
    · rw [if_pos htx, htx]
      have h0 : s.invoked w.task = 0 := hinv.invoked_zero w.task hnever
      omega
    · rw [if_neg htx]
      exact hinv.invoked_le tx
  · -- invoked_zero
    intro tx hall
    show bump s.invoked w.task tx = 0
    unfold bump
    by_cases htx : tx = w.task
    · have h2 := hall i w' hself (by rw [htx])
      cases h2
    · rw [if_neg htx]
      apply hinv.invoked_zero
      intro a wa ha hta
      by_cases hai : a = i
      · rw [hai, hw] at ha
        have hwwa : w = wa := Option.some.inj ha
        rw [← hwwa] at hta
        exact absurd hta.symm htx
      · exact hall a wa (hold a wa hai ha) hta
  · -- permit_phase
    intro a wa ha hpa
    rcases hlook a wa ha with ⟨hai, hwa⟩ | ⟨hai, ha2⟩
    · subst hwa
      exact Or.inl rfl
    · exact hinv.permit_phase a wa ha2 hpa
  · -- phase_permit
    intro a wa ha hpa
    rcases hlook a wa ha with ⟨hai, hwa⟩ | ⟨hai, ha2⟩
    · subst hwa
      rfl
    · exact hinv.phase_permit a wa ha2 hpa
  · -- sem_cap
    intro k hk
    have hup : permits s' = permits s + 1 := by
      unfold permits
      rw [hws']
      exact filter_length_set_up _ s.ws i w' w hw hwP rfl
    rw [hup]
    have := hcap k hk
    omega
  · -- start_recvd
    intro a wa ha hsa
    rcases hlook a wa ha with ⟨hai, hwa⟩ | ⟨hai, ha2⟩
    · subst hwa
      cases hsa
    · exact hinv.start_recvd a wa ha2 hsa
  · -- waiting_wf
    intro a wa pa ha hpa
    rcases hlook a wa ha with ⟨hai, hwa⟩ | ⟨hai, ha2⟩
    · subst hwa
      cases hpa
    · obtain ⟨hperm2, hnone2, hex2⟩ := hinv.waiting_wf a wa pa ha2 hpa
      refine ⟨?_, hnone2, ?_⟩
      · have : pa.map (task_at s') = pa.map (task_at s) :=
          List.map_congr_left (fun j _ => htat j)
        rw [this]
        exact hperm2
      · intro j hj
        obtain ⟨wj, hwj⟩ := hex2 j hj
        by_cases hji : j = i
        · exact ⟨w', by rw [hji]; exact hself⟩
        · exact ⟨wj, hold j wj hji hwj⟩
  · -- recvd_content
    intro a wa ha e he
    rcases hlook a wa ha with ⟨hai, hwa⟩ | ⟨hai, ha2⟩
    · subst hwa
      obtain ⟨h1, h2, h3⟩ := hinv.recvd_content i w hw e he
      exact ⟨h1, h2, hfin _ h3⟩
    · obtain ⟨h1, h2, h3⟩ := hinv.recvd_content a wa ha2 e he
      exact ⟨h1, h2, hfin _ h3⟩
  · -- invoked_deps
    intro a wa ha hpa d hd
    rcases hlook a wa ha with ⟨hai, hwa⟩ | ⟨hai, ha2⟩
    · subst hwa
      obtain ⟨h1, h2, h3⟩ := hinv.invoked_deps i w hw (Or.inl hph) d hd
      exact ⟨h1, h2, hfin _ h3⟩
    · obtain ⟨h1, h2, h3⟩ := hinv.invoked_deps a wa ha2 hpa d hd
      exact ⟨h1, h2, hfin _ h3⟩
  · -- owner_past
    intro a wa ha hoa hpa
    rcases hlook a wa ha with ⟨hai, hwa⟩ | ⟨hai, ha2⟩
    · subst hwa
      cases hpa
    · exact hinv.owner_past a wa ha2 hoa hpa
  · -- failure_src
    intro a wa ha hoa hpa hea e he
    rcases hlook a wa ha with ⟨hai, hwa⟩ | ⟨hai, ha2⟩
    · subst hwa
      cases hpa
    · obtain ⟨d, hd1, hd2, hd3, hd4⟩ := hinv.failure_src a wa ha2 hoa hpa hea e he
      exact ⟨d, hd1, hd2, hd3, hfin _ hd4⟩
  · -- done_owner
    intro tx htx
    obtain ⟨a, wa, ha, hta, hoa⟩ := hinv.done_owner tx htx
    by_cases hai : a = i
    · rw [hai, hw] at ha
      have hwwa : w = wa := Option.some.inj ha
      exact ⟨i, w', hself, by rw [← hta, ← hwwa], by rw [← hwwa] at hoa; exact hoa⟩
    · exact ⟨a, wa, hold a wa hai ha, hta, hoa⟩

/-- Preservation under `finish_body`: the body result is written into `err`.
No recorded dependency result can concern this task (its goroutine is still
pending, so the task is not finalized), hence every `err` fact of the invariant
survives the write. -/
theorem inv_finish_body (C : Cfg) (s : Sys) (i : Nat) (w : Worker)
    (hw : s.ws.get? i = some w) (hph : w.phase = .inBody)
    (hinv : ExecInv C s) :
    ExecInv C { s with
      err := set_err s.err w.task (C.body w.task),
      ws := s.ws.set i { w with phase := .sending } } := by
  have hwO : w.owner = true := hinv.pending_owner i w hw (by rw [hph]; rfl)
  have hwE : w.everInvoked = true := hinv.body_ever i w hw hph
  have hwpend : w.phase.isPending = true := by rw [hph]; rfl
  have hne_fin : ∀ d, task_finalized s d → d ≠ w.task := by
    intro d hf hc
    have := hf i w hw hc.symm
    rw [hwpend] at this
    cases this
  set w' : Worker := { w with phase := .sending } with hw'
  set s' : Sys := { s with err := set_err s.err w.task (C.body w.task),
                           ws := s.ws.set i w' } with hs'
  have hws' : s'.ws = s.ws.set i w' := rfl
  have herr_ne : ∀ d, d ≠ w.task → s'.err d = s.err d := by
    intro d hd
    show set_err s.err w.task (C.body w.task) d = s.err d
    unfold set_err
    rw [if_neg hd]
  have hself : s'.ws.get? i = some w' := by
    rw [hws']
    exact get?_set_self _ _ _ (get?_some_lt hw)
  have hold : ∀ j wj, j ≠ i → s.ws.get? j = some wj → s'.ws.get? j = some wj := by
    intro j wj hne hj
    rw [hws']
    exact get?_still_set hj hne
  have hlook : ∀ j wj, s'.ws.get? j = some wj →
      (j = i ∧ wj = w') ∨ (j ≠ i ∧ s.ws.get? j = some wj) := by
    intro j wj hj
    rw [hws'] at hj
    exact get?_set_cases _ _ _ _ _ hj
  have htat : ∀ j, task_at s' j = task_at s j :=
    task_at_set s s' i w w' hw rfl hws'
  have hfin : ∀ d, task_finalized s d → task_finalized s' d := by
    intro d hf b wb hb htb
    rcases hlook b wb hb with ⟨hbi, hwb⟩ | ⟨hbi, hb2⟩
    · subst hwb
      rfl
    · exact hf b wb hb2 htb
  have howner_ne : ∀ a wa, s.ws.get? a = some wa → a ≠ i → wa.owner = true →
      wa.task ≠ w.task := by
    intro a wa ha hai hoa hc
    exact hai (hinv.owner_uniq a i wa w ha hw hoa hwO hc)
  refine ⟨?_, ?_, ?_, ?_, ?_, ?_, ?_, ?_, ?_, ?_, ?_, ?_, ?_, ?_, ?_, ?_, ?_,
    ?_, ?_, ?_, ?_⟩
  · -- uniq
    intro a b wa wb ha hb haa hab htt
    rcases hlook a wa ha with ⟨hai, hwa⟩ | ⟨hai, ha2⟩ <;>
      rcases hlook b wb hb with ⟨hbi, hwb⟩ | ⟨hbi, hb2⟩
    · rw [hai, hbi]
    · subst hwa
      have hwa2 : s.ws.get? a = some w := by rw [hai]; exact hw
      exact hinv.uniq a b w wb hwa2 hb2 (by rw [hph]; rfl) hab htt
    · subst hwb
      have hwb2 : s.ws.get? b = some w := by rw [hbi]; exact hw
      exact hinv.uniq a b wa w ha2 hwb2 haa (by rw [hph]; rfl) htt
    · exact hinv.uniq a b wa wb ha2 hb2 haa hab htt
  · -- active_done
    intro a wa ha haa
    rcases hlook a wa ha with ⟨hai, hwa⟩ | ⟨hai, ha2⟩
    · subst hwa
      exact hinv.active_done i w hw (by rw [hph]; rfl)
    · exact hinv.active_done a wa ha2 haa
  · -- owner_done
    intro a wa ha hoa
    rcases hlook a wa ha with ⟨hai, hwa⟩ | ⟨hai, ha2⟩
    · subst hwa
      exact hinv.owner_done i w hw hoa
    · exact hinv.owner_done a wa ha2 hoa
  · -- owner_uniq
    intro a b wa wb ha hb hoa hob htt
    rcases hlook a wa ha with ⟨hai, hwa⟩ | ⟨hai, ha2⟩ <;>
      rcases hlook b wb hb with ⟨hbi, hwb⟩ | ⟨hbi, hb2⟩
    · rw [hai, hbi]
    · subst hwa
      have hwa2 : s.ws.get? a = some w := by rw [hai]; exact hw
      exact hinv.owner_uniq a b w wb hwa2 hb2 hoa hob htt
    · subst hwb
      have hwb2 : s.ws.get? b = some w := by rw [hbi]; exact hw
      exact hinv.owner_uniq a b wa w ha2 hwb2 hoa hob htt
    · exact hinv.owner_uniq a b wa wb ha2 hb2 hoa hob htt
  · -- owner_not_start
    intro a wa ha hoa
    rcases hlook a wa ha with ⟨hai, hwa⟩ | ⟨hai, ha2⟩
    · subst hwa
      intro hc
      cases hc
    · exact hinv.owner_not_start a wa ha2 hoa
  · -- pending_owner
    intro a wa ha hpa
    rcases hlook a wa ha with ⟨hai, hwa⟩ | ⟨hai, ha2⟩
    · subst hwa
      cases hpa
    · exact hinv.pending_owner a wa ha2 hpa
  · -- ever_owner
    intro a wa ha hea
    rcases hlook a wa ha with ⟨hai, hwa⟩ | ⟨hai, ha2⟩
    · subst hwa
      exact hwO
    · exact hinv.ever_owner a wa ha2 hea
  · -- ever_post
    intro a wa ha hea
    rcases hlook a wa ha with ⟨hai, hwa⟩ | ⟨hai, ha2⟩
    · subst hwa
      rfl
    · exact hinv.ever_post a wa ha2 hea
  · -- body_ever
    intro a wa ha hba
    rcases hlook a wa ha with ⟨hai, hwa⟩ | ⟨hai, ha2⟩
    · subst hwa
      cases hba
    · exact hinv.body_ever a wa ha2 hba
  · -- invoked_le
    intro tx
    exact hinv.invoked_le tx
  · -- invoked_zero
    intro tx hall
    apply hinv.invoked_zero
    intro a wa ha hta
    by_cases hai : a = i
    · rw [hai, hw] at ha
      have hwwa : w = wa := Option.some.inj ha
      have h2 := hall i w' hself (by rw [← hta, ← hwwa])
      rw [← hwwa]
      exact h2
    · exact hall a wa (hold a wa hai ha) hta
  · -- permit_phase
    intro a wa ha hpa
    rcases hlook a wa ha with ⟨hai, hwa⟩ | ⟨hai, ha2⟩
    · subst hwa
      exact Or.inr (Or.inl rfl)
    · exact hinv.permit_phase a wa ha2 hpa
  · -- phase_permit
    intro a wa ha hpa
    rcases hlook a wa ha with ⟨hai, hwa⟩ | ⟨hai, ha2⟩
    · subst hwa
      rcases hpa with hpa | hpa <;> cases hpa
    · exact hinv.phase_permit a wa ha2 hpa
  · -- sem_cap
    intro k hk
    have : permits s' = permits s := by
      unfold permits
      rw [hws']
      exact filter_length_set_congr _ s.ws i w' w hw rfl
    rw [this]
    exact hinv.sem_cap k hk
  · -- start_recvd
    intro a wa ha hsa
    rcases hlook a wa ha with ⟨hai, hwa⟩ | ⟨hai, ha2⟩
    · subst hwa
      cases hsa
    · exact hinv.start_recvd a wa ha2 hsa
  · -- waiting_wf
    intro a wa pa ha hpa
    rcases hlook a wa ha with ⟨hai, hwa⟩ | ⟨hai, ha2⟩
    · subst hwa
      cases hpa
    · obtain ⟨hperm2, hnone2, hex2⟩ := hinv.waiting_wf a wa pa ha2 hpa
      refine ⟨?_, hnone2, ?_⟩
      · have : pa.map (task_at s') = pa.map (task_at s) :=
          List.map_congr_left (fun j _ => htat j)
        rw [this]
        exact hperm2
      · intro j hj
        obtain ⟨wj, hwj⟩ := hex2 j hj
        by_cases hji : j = i
        · exact ⟨w', by rw [hji]; exact hself⟩
        · exact ⟨wj, hold j wj hji hwj⟩
  · -- recvd_content
    intro a wa ha e he
    have key : ∀ wb, s.ws.get? a = some wb → e ∈ wb.recvd →
        s'.done e.1 = true ∧ s'.err e.1 = e.2 ∧ task_finalized s' e.1 := by
      intro wb hb heb
      obtain ⟨h1, h2, h3⟩ := hinv.recvd_content a wb hb e heb
      refine ⟨h1, ?_, hfin _ h3⟩
      rw [herr_ne e.1 (hne_fin e.1 h3)]
      exact h2
    rcases hlook a wa ha with ⟨hai, hwa⟩ | ⟨hai, ha2⟩
    · subst hwa
      exact key w (by rw [hai]; exact hw) he
    · exact key wa ha2 he
  · -- invoked_deps
    intro a wa ha hpa d hd
    have key : ∀ wb, s.ws.get? a = some wb →
        (wb.phase = .acqSem ∨ wb.everInvoked = true) → d ∈ C.deps wb.task →
        s'.done d = true ∧ s'.err d = none ∧ task_finalized s' d := by
      intro wb hb hpb hdb
      obtain ⟨h1, h2, h3⟩ := hinv.invoked_deps a wb hb hpb d hdb
      refine ⟨h1, ?_, hfin _ h3⟩
      rw [herr_ne d (hne_fin d h3)]
      exact h2
    rcases hlook a wa ha with ⟨hai, hwa⟩ | ⟨hai, ha2⟩
    · subst hwa
      exact key w (by rw [hai]; exact hw) (Or.inr hwE) hd
    · exact key wa ha2 hpa hd
  · -- owner_past
    intro a wa ha hoa hpa
    rcases hlook a wa ha with ⟨hai, hwa⟩ | ⟨hai, ha2⟩
    · subst hwa
      exact Or.inl hwE
    · rcases hinv.owner_past a wa ha2 hoa hpa with h | ⟨e, he⟩
      · exact Or.inl h
      · refine Or.inr ⟨e, ?_⟩
        rw [herr_ne wa.task (howner_ne a wa ha2 hai hoa)]
        exact he
  · -- failure_src
    intro a wa ha hoa hpa hea e he
    rcases hlook a wa ha with ⟨hai, hwa⟩ | ⟨hai, ha2⟩
    · subst hwa
      have : w.everInvoked = false := hea
      rw [hwE] at this
      cases this
    · rw [herr_ne wa.task (howner_ne a wa ha2 hai hoa)] at he
      obtain ⟨d, hd1, hd2, hd3, hd4⟩ := hinv.failure_src a wa ha2 hoa hpa hea e he
      refine ⟨d, hd1, hd2, ?_, hfin _ hd4⟩
      rw [herr_ne d (hne_fin d hd4)]
      exact hd3
  · -- done_owner
    intro tx htx
    obtain ⟨a, wa, ha, hta, hoa⟩ := hinv.done_owner tx htx
    by_cases hai : a = i
    · rw [hai, hw] at ha
      have hwwa : w = wa := Option.some.inj ha
      exact ⟨i, w', hself, by rw [← hta, ← hwwa], by rw [← hwwa] at hoa; exact hoa⟩
    · exact ⟨a, wa, hold a wa hai ha, hta, hoa⟩

theorem pend_active (ph : Phase) (h : ph.isPending = true) : ph.isActive = true := by
  cases ph <;> first | rfl | cases h

theorem perm_snoc {α : Type _} (x : α) (l : List α) : (l ++ [x]).Perm (x :: l) := by
  have h := @List.perm_middle _ x l []
  simpa using h

/-- Collecting one pending element: moving `x` from the middle of the pending
list to the end of the received list is a permutation. -/
theorem perm_collect {α : Type _} (A B R : List α) (x : α) :
    ((A ++ B) ++ (R ++ [x])).Perm ((A ++ x :: B) ++ R) := by
  have e1 : (A ++ B) ++ (R ++ [x]) = ((A ++ B) ++ R) ++ [x] := by
    rw [← List.append_assoc]
  rw [e1]
  refine (perm_snoc x ((A ++ B) ++ R)).trans ?_
  have h1 : (x :: (A ++ B)).Perm (A ++ x :: B) := (@List.perm_middle _ x A B).symm
  exact h1.append_right R

/-- Preservation under `recv`: a rendezvous on the private dependency channel.
The recorded error of the sender becomes the receiver task's `err`; the pending
index moves into the received list, keeping the coverage permutation; on a
failure the receiver aborts its wait and the failing dependency witnesses
`failure_src`. -/
theorem inv_recv (C : Cfg) (s : Sys) (i : Nat) (wi : Worker) (j : Nat)
    (wj : Worker) (l1 l2 : List Nat)
    (hwi : s.ws.get? i = some wi) (hph : wi.phase = .waiting (l1 ++ j :: l2))
    (hwj : s.ws.get? j = some wj) (hsend : wj.phase = .sending)
    (hinv : ExecInv C s) :
    ExecInv C { s with
      err := set_err s.err wi.task (s.err wj.task),
      ws := (s.ws.set i { wi with
          phase := if s.err wj.task = none then .waiting (l1 ++ l2)
                   else .sending,
          recvd := wi.recvd ++ [(wj.task, s.err wj.task)] }).set j
        { wj with phase := if wj.hasPermit then .signaling
                           else .unlocking } } := by
  have hiact : wi.phase.isActive = true := by rw [hph]; rfl
  have hjact : wj.phase.isActive = true := by rw [hsend]; rfl
  have hipend : wi.phase.isPending = true := by rw [hph]; rfl
  have hjpend : wj.phase.isPending = false := by rw [hsend]; rfl
  have hij : i ≠ j := by
    intro hc
    rw [hc, hwj] at hwi
    have hww : wj = wi := Option.some.inj hwi
    rw [← hww, hsend] at hph
    cases hph
  have htij : wi.task ≠ wj.task := by
    intro hc
    exact hij (hinv.uniq i j wi wj hwi hwj hiact hjact hc)
  have hiO : wi.owner = true := hinv.pending_owner i wi hwi hipend
  have hiE : wi.everInvoked = false := by
    by_contra hc
    have h1 := hinv.ever_post i wi hwi
      (by revert hc; cases wi.everInvoked <;> simp)
    rw [hph] at h1
    cases h1
  have hiP : wi.hasPermit = false := by
    by_contra hc
    rcases hinv.permit_phase i wi hwi (by revert hc; cases wi.hasPermit <;> simp)
      with h1 | h1 | h1 <;> rw [hph] at h1 <;> cases h1
  have hjdone : s.done wj.task = true := hinv.active_done j wj hwj hjact
  have hne_fin : ∀ d, task_finalized s d → d ≠ wi.task := by
    intro d hf hc
    have := hf i wi hwi hc.symm
    rw [hipend] at this
    cases this
  obtain ⟨hpermi, hnonei, hexi⟩ := hinv.waiting_wf i wi (l1 ++ j :: l2) hwi hph
  have htaj : task_at s j = wj.task := by unfold task_at; rw [hwj]
  have hjmem : j ∈ l1 ++ j :: l2 := by simp
  have hdepj : wj.task ∈ C.deps wi.task := by
    have hm : wj.task ∈ (l1 ++ j :: l2).map (task_at s) :=
      List.mem_map.mpr ⟨j, hjmem, htaj⟩
    exact hpermi.mem_iff.mp (List.mem_append_left _ hm)
  have hilt : i < s.ws.length := get?_some_lt hwi
  have hjlt : j < s.ws.length := get?_some_lt hwj
  set wi' : Worker := { wi with
      phase := if s.err wj.task = none then .waiting (l1 ++ l2) else .sending,
      recvd := wi.recvd ++ [(wj.task, s.err wj.task)] } with hwi'
  set wj' : Worker := { wj with
      phase := if wj.hasPermit then .signaling else .unlocking } with hwj'
  set s' : Sys := { s with
      err := set_err s.err wi.task (s.err wj.task),
      ws := (s.ws.set i wi').set j wj' } with hs'
  have hws' : s'.ws = (s.ws.set i wi').set j wj' := rfl
  have herr_ne : ∀ d, d ≠ wi.task → s'.err d = s.err d := by
    intro d hd
    show set_err s.err wi.task (s.err wj.task) d = s.err d
    unfold set_err
    rw [if_neg hd]
  have herr_self : s'.err wi.task = s.err wj.task := by
    show set_err s.err wi.task (s.err wj.task) wi.task = s.err wj.task
    unfold set_err
    rw [if_pos rfl]
  have hself_j : s'.ws.get? j = some wj' := by
    rw [hws']
    exact get?_set_self _ _ _ (by rw [List.length_set]; exact hjlt)
  have hself_i : s'.ws.get? i = some wi' := by
    rw [hws', get?_set_other _ j i wj' hij]
    exact get?_set_self _ _ _ hilt
  have hold : ∀ a wa, a ≠ i → a ≠ j → s.ws.get? a = some wa →
      s'.ws.get? a = some wa := by
    intro a wa hai haj ha
    rw [hws', get?_set_other _ j a wj' haj, get?_set_other _ i a wi' hai]
    exact ha
  have hlook : ∀ a wa, s'.ws.get? a = some wa →
      (a = j ∧ wa = wj') ∨ (a ≠ j ∧ a = i ∧ wa = wi') ∨
      (a ≠ j ∧ a ≠ i ∧ s.ws.get? a = some wa) := by
    intro a wa ha
    rw [hws'] at ha
    rcases get?_set_cases _ _ _ _ _ ha with ⟨haj, hwa⟩ | ⟨haj, ha2⟩
    · exact Or.inl ⟨haj, hwa⟩
    · rcases get?_set_cases _ _ _ _ _ ha2 with ⟨hai, hwa⟩ | ⟨hai, ha3⟩
      · exact Or.inr (Or.inl ⟨haj, hai, hwa⟩)
      · exact Or.inr (Or.inr ⟨haj, hai, ha3⟩)
  have hj_cases : wj'.phase = Phase.signaling ∨ wj'.phase = Phase.unlocking := by
    by_cases hh : wj.hasPermit = true
    · exact Or.inl (by
        show (if wj.hasPermit = true then Phase.signaling else Phase.unlocking)
          = _
        rw [if_pos hh])
    · exact Or.inr (by
        show (if wj.hasPermit = true then Phase.signaling else Phase.unlocking)
          = _
        rw [if_neg hh])
  have hjp_pend : wj'.phase.isPending = false := by
    rcases hj_cases with h | h <;> rw [h] <;> rfl
  have htat : ∀ x, task_at s' x = task_at s x := by
    intro x
    unfold task_at
    rw [hws']
    by_cases hxj : x = j
    · subst hxj
      rw [get?_set_self _ _ _ (by rw [List.length_set]; exact hjlt), hwj]
    · rw [get?_set_other _ j x wj' hxj]
      by_cases hxi : x = i
      · subst hxi
        rw [get?_set_self _ _ _ hilt, hwi]
      · rw [get?_set_other _ i x wi' hxi]
  have htatmap : ∀ (L : List Nat), L.map (task_at s') = L.map (task_at s) :=
    fun L => List.map_congr_left (fun x _ => htat x)
  have hfinj : task_finalized s' wj.task := by
    intro b wb hb htb
    rcases hlook b wb hb with ⟨hbj, hwb⟩ | ⟨hbj, hbi, hwb⟩ | ⟨hbj, hbi, hb2⟩
    · subst hwb
      exact hjp_pend
    · subst hwb
      have : wi.task = wj.task := htb
      exact absurd this htij
    · by_contra hc
      have hp : wb.phase.isPending = true := by
        revert hc; cases wb.phase.isPending <;> simp
      have hact := pend_active wb.phase hp
      exact hbj (hinv.uniq b j wb wj hb2 hwj hact hjact htb)
  have hfin : ∀ d, task_finalized s d → task_finalized s' d := by
    intro d hf b wb hb htb
    rcases hlook b wb hb with ⟨hbj, hwb⟩ | ⟨hbj, hbi, hwb⟩ | ⟨hbj, hbi, hb2⟩
    · subst hwb
      exact hjp_pend
    · subst hwb
      have : wi.task = d := htb
      exact absurd this.symm (hne_fin d hf)
    · exact hf b wb hb2 htb
  have hback : ∀ a wa, s'.ws.get? a = some wa →
      ∃ wa0, s.ws.get? a = some wa0 ∧ wa0.task = wa.task ∧
        wa0.owner = wa.owner ∧ wa0.everInvoked = wa.everInvoked ∧
        (wa.phase.isActive = true → wa0.phase.isActive = true) ∧
        (wa.phase.isPending = true → wa0.phase.isPending = true) := by
    intro a wa ha
    rcases hlook a wa ha with ⟨haj, hwa⟩ | ⟨haj, hai, hwa⟩ | ⟨haj, hai, ha2⟩
    · subst hwa
      subst haj
      refine ⟨wj, hwj, rfl, rfl, rfl, fun _ => hjact, ?_⟩
      intro hp
      rw [hjp_pend] at hp
      cases hp
    · subst hwa
      subst hai
      exact ⟨wi, hwi, rfl, rfl, rfl, fun _ => hiact, fun _ => hipend⟩
    · exact ⟨wa, ha2, rfl, rfl, rfl, fun h => h, fun h => h⟩
  have hfwd : ∀ a wa0, s.ws.get? a = some wa0 → ∃ wa, s'.ws.get? a = some wa ∧
      wa.task = wa0.task ∧ wa.everInvoked = wa0.everInvoked ∧
      wa.owner = wa0.owner := by
    intro a wa0 ha
    by_cases haj : a = j
    · subst haj
      rw [hwj] at ha
      have hww : wj = wa0 := Option.some.inj ha
      exact ⟨wj', hself_j, by rw [← hww], by rw [← hww], by rw [← hww]⟩
    · by_cases hai : a = i
      · subst hai
        rw [hwi] at ha
        have hww : wi = wa0 := Option.some.inj ha
        exact ⟨wi', hself_i, by rw [← hww], by rw [← hww], by rw [← hww]⟩
      · exact ⟨wa0, hold a wa0 hai haj ha, rfl, rfl, rfl⟩
  have hkey_entry : ∀ a wb, s.ws.get? a = some wb → ∀ e, e ∈ wb.recvd →
      s'.done e.1 = true ∧ s'.err e.1 = e.2 ∧ task_finalized s' e.1 := by
    intro a wb hb e heb
    obtain ⟨h1, h2, h3⟩ := hinv.recvd_content a wb hb e heb
    refine ⟨h1, ?_, hfin _ h3⟩
    rw [herr_ne e.1 (hne_fin e.1 h3)]
    exact h2
  have hkey_deps : ∀ a wb, s.ws.get? a = some wb →
      (wb.phase = .acqSem ∨ wb.everInvoked = true) → ∀ d, d ∈ C.deps wb.task →
      s'.done d = true ∧ s'.err d = none ∧ task_finalized s' d := by
    intro a wb hb hpb d hdb
    obtain ⟨h1, h2, h3⟩ := hinv.invoked_deps a wb hb hpb d hdb
    refine ⟨h1, ?_, hfin _ h3⟩
    rw [herr_ne d (hne_fin d h3)]
    exact h2
  refine ⟨?_, ?_, ?_, ?_, ?_, ?_, ?_, ?_, ?_, ?_, ?_, ?_, ?_, ?_, ?_, ?_, ?_,
    ?_, ?_, ?_, ?_⟩
  · -- uniq
    intro a b wa wb ha hb haa hab htt
    obtain ⟨wa0, ha0, hta, _, _, hacta, _⟩ := hback a wa ha
    obtain ⟨wb0, hb0, htb, _, _, hactb, _⟩ := hback b wb hb
    exact hinv.uniq a b wa0 wb0 ha0 hb0 (hacta haa) (hactb hab)
      (by rw [hta, htb, htt])
  · -- active_done
    intro a wa ha haa
    obtain ⟨wa0, ha0, hta, _, _, hacta, _⟩ := hback a wa ha
    have := hinv.active_done a wa0 ha0 (hacta haa)
    show s.done wa.task = true
    rw [← hta]
    exact this
  · -- owner_done
    intro a wa ha hoa
    obtain ⟨wa0, ha0, hta, hoe, _, _, _⟩ := hback a wa ha
    have := hinv.owner_done a wa0 ha0 (hoe.trans hoa)
    show s.done wa.task = true
    rw [← hta]
    exact this
  · -- owner_uniq
    intro a b wa wb ha hb hoa hob htt
    obtain ⟨wa0, ha0, hta, hoea, _, _, _⟩ := hback a wa ha
    obtain ⟨wb0, hb0, htb, hoeb, _, _, _⟩ := hback b wb hb
    exact hinv.owner_uniq a b wa0 wb0 ha0 hb0 (hoea.trans hoa) (hoeb.trans hob)
      (by rw [hta, htb, htt])
  · -- owner_not_start
    intro a wa ha hoa
    rcases hlook a wa ha with ⟨haj, hwa⟩ | ⟨haj, hai, hwa⟩ | ⟨haj, hai, ha2⟩
    · subst hwa
      intro hc
      rcases hj_cases with h | h <;> rw [h] at hc <;> cases hc
    · subst hwa
      intro hc
      have hc2 : (if s.err wj.task = none then Phase.waiting (l1 ++ l2)
          else Phase.sending) = Phase.start := hc
      by_cases herr0 : s.err wj.task = none
      · rw [if_pos herr0] at hc2
        cases hc2
      · rw [if_neg herr0] at hc2
        cases hc2
    · exact hinv.owner_not_start a wa ha2 hoa
  · -- pending_owner
    intro a wa ha hpa
    obtain ⟨wa0, ha0, _, hoe, _, _, hpende⟩ := hback a wa ha
    have := hinv.pending_owner a wa0 ha0 (hpende hpa)
    rw [← hoe]
    exact this
  · -- ever_owner
    intro a wa ha hea
    obtain ⟨wa0, ha0, _, hoe, heve, _, _⟩ := hback a wa ha
    have := hinv.ever_owner a wa0 ha0 (heve.trans hea)
    rw [← hoe]
    exact this
  · -- ever_post
    intro a wa ha hea
    rcases hlook a wa ha with ⟨haj, hwa⟩ | ⟨haj, hai, hwa⟩ | ⟨haj, hai, ha2⟩
    · subst hwa
      rcases hj_cases with h | h <;> rw [h] <;> rfl
    · subst hwa
      have : wi.everInvoked = true := hea
      rw [hiE] at this
      cases this
    · exact hinv.ever_post a wa ha2 hea
  · -- body_ever
    intro a wa ha hba
    rcases hlook a wa ha with ⟨haj, hwa⟩ | ⟨haj, hai, hwa⟩ | ⟨haj, hai, ha2⟩
    · subst hwa
      rcases hj_cases with h | h <;> rw [h] at hba <;> cases hba
    · subst hwa
      have hc2 : (if s.err wj.task = none then Phase.waiting (l1 ++ l2)
          else Phase.sending) = Phase.inBody := hba
      by_cases herr0 : s.err wj.task = none
      · rw [if_pos herr0] at hc2
        cases hc2
      · rw [if_neg herr0] at hc2
        cases hc2
    · exact hinv.body_ever a wa ha2 hba
  · -- invoked_le
    intro tx
    exact hinv.invoked_le tx
  · -- invoked_zero
    intro tx hall
    show s.invoked tx = 0
    apply hinv.invoked_zero
    intro a wa0 ha hta
    obtain ⟨wa, h1, h2, h3, _⟩ := hfwd a wa0 ha
    have := hall a wa h1 (h2.trans hta)
    rw [← h3]
    exact this
  · -- permit_phase
    intro a wa ha hpa
    rcases hlook a wa ha with ⟨haj, hwa⟩ | ⟨haj, hai, hwa⟩ | ⟨haj, hai, ha2⟩
    · subst hwa
      have hp : wj.hasPermit = true := hpa
      refine Or.inr (Or.inr ?_)
      show (if wj.hasPermit = true then Phase.signaling else Phase.unlocking)
        = Phase.signaling
      rw [if_pos hp]
    · subst hwa
      have hp : wi.hasPermit = true := hpa
      rw [hiP] at hp
      cases hp
    · exact hinv.permit_phase a wa ha2 hpa
  · -- phase_permit
    intro a wa ha hpa
    rcases hlook a wa ha with ⟨haj, hwa⟩ | ⟨haj, hai, hwa⟩ | ⟨haj, hai, ha2⟩
    · subst hwa
      by_cases hh : wj.hasPermit = true
      · exact hh
      · have h0 : wj'.phase = Phase.unlocking := by
          show (if wj.hasPermit = true then Phase.signaling
            else Phase.unlocking) = _
          rw [if_neg hh]
        rcases hpa with hpa | hpa <;> rw [h0] at hpa <;> cases hpa
    · subst hwa
      have hpa2 : (if s.err wj.task = none then Phase.waiting (l1 ++ l2)
            else Phase.sending) = Phase.inBody ∨
          (if s.err wj.task = none then Phase.waiting (l1 ++ l2)
            else Phase.sending) = Phase.signaling := hpa
      by_cases herr0 : s.err wj.task = none
      · rw [if_pos herr0] at hpa2
        rcases hpa2 with h | h <;> cases h
      · rw [if_neg herr0] at hpa2
        rcases hpa2 with h | h <;> cases h
    · exact hinv.phase_permit a wa ha2 hpa
  · -- sem_cap
    intro k hk
    have hmid : (s.ws.set i wi').get? j = some wj :=
      get?_still_set hwj (fun h => hij h.symm)
    have h1 : permits s' = ((s.ws.set i wi').filter
        (fun x => x.hasPermit)).length := by
      unfold permits
      rw [hws']
      exact filter_length_set_congr _ _ j wj' wj hmid rfl
    have h2 : ((s.ws.set i wi').filter (fun x => x.hasPermit)).length
        = permits s := by
      unfold permits
      exact filter_length_set_congr _ _ i wi' wi hwi rfl
    rw [h1, h2]
    exact hinv.sem_cap k hk
  · -- start_recvd
    intro a wa ha hsa
    rcases hlook a wa ha with ⟨haj, hwa⟩ | ⟨haj, hai, hwa⟩ | ⟨haj, hai, ha2⟩
    · subst hwa
      rcases hj_cases with h | h <;> rw [h] at hsa <;> cases hsa
    · subst hwa
      have hc2 : (if s.err wj.task = none then Phase.waiting (l1 ++ l2)
          else Phase.sending) = Phase.start := hsa
      by_cases herr0 : s.err wj.task = none
      · rw [if_pos herr0] at hc2
        cases hc2
      · rw [if_neg herr0] at hc2
        cases hc2
    · exact hinv.start_recvd a wa ha2 hsa
  · -- waiting_wf
    intro a wa pa ha hpa
    rcases hlook a wa ha with ⟨haj, hwa⟩ | ⟨haj, hai, hwa⟩ | ⟨haj, hai, ha2⟩
    · subst hwa
      rcases hj_cases with h | h <;> rw [h] at hpa <;> cases hpa
    · subst hwa
      have hpa2 : (if s.err wj.task = none then Phase.waiting (l1 ++ l2)
          else Phase.sending) = Phase.waiting pa := hpa
      by_cases herr0 : s.err wj.task = none
      · rw [if_pos herr0] at hpa2
        have hpa3 : l1 ++ l2 = pa := by injection hpa2
        subst hpa3
        refine ⟨?_, ?_, ?_⟩
        · show (((l1 ++ l2).map (task_at s')) ++
              ((wi.recvd ++ [(wj.task, s.err wj.task)]).map Prod.fst)).Perm
            (C.deps wi.task)
          rw [htatmap (l1 ++ l2), List.map_append, List.map_append]
          refine List.Perm.trans ?_ hpermi
          have hmaps : (l1 ++ j :: l2).map (task_at s)
              = l1.map (task_at s) ++ wj.task :: l2.map (task_at s) := by
            rw [List.map_append, List.map_cons, htaj]
          rw [hmaps]
          exact perm_collect (l1.map (task_at s)) (l2.map (task_at s))
            (wi.recvd.map Prod.fst) wj.task
        · intro e he
          have he2 : e ∈ wi.recvd ++ [(wj.task, s.err wj.task)] := he
          rcases List.mem_append.mp he2 with h | h
          · exact hnonei e h
          · have : e = (wj.task, s.err wj.task) := by simpa using h
            rw [this]
            exact herr0
        · intro b hb
          have hb2 : b ∈ l1 ++ j :: l2 := by
            rcases List.mem_append.mp hb with h | h
            · exact List.mem_append_left _ h
            · exact List.mem_append_right _ (List.mem_cons_of_mem j h)
          obtain ⟨wb, hwb⟩ := hexi b hb2
          by_cases hbj : b = j
          · exact ⟨wj', by rw [hbj]; exact hself_j⟩
          · by_cases hbi : b = i
            · exact ⟨wi', by rw [hbi]; exact hself_i⟩
            · exact ⟨wb, hold b wb hbi hbj hwb⟩
      · rw [if_neg herr0] at hpa2
        cases hpa2
    · obtain ⟨hperm2, hnone2, hex2⟩ := hinv.waiting_wf a wa pa ha2 hpa
      refine ⟨?_, hnone2, ?_⟩
      · rw [htatmap pa]
        exact hperm2
      · intro b hb
        obtain ⟨wb, hwb⟩ := hex2 b hb
        by_cases hbj : b = j
        · exact ⟨wj', by rw [hbj]; exact hself_j⟩
        · by_cases hbi : b = i
          · exact ⟨wi', by rw [hbi]; exact hself_i⟩
          · exact ⟨wb, hold b wb hbi hbj hwb⟩
  · -- recvd_content
    intro a wa ha e he
    rcases hlook a wa ha with ⟨haj, hwa⟩ | ⟨haj, hai, hwa⟩ | ⟨haj, hai, ha2⟩
    · subst hwa
      exact hkey_entry a wj (by rw [haj]; exact hwj) e he
    · subst hwa
      have he2 : e ∈ wi.recvd ++ [(wj.task, s.err wj.task)] := he
      rcases List.mem_append.mp he2 with h | h
      · exact hkey_entry a wi (by rw [hai]; exact hwi) e h
      · have he3 : e = (wj.task, s.err wj.task) := by simpa using h
        rw [he3]
        refine ⟨hjdone, ?_, hfinj⟩
        show s'.err wj.task = s.err wj.task
        exact herr_ne wj.task (Ne.symm htij)
    · exact hkey_entry a wa ha2 e he
  · -- invoked_deps
    intro a wa ha hpa d hd
    rcases hlook a wa ha with ⟨haj, hwa⟩ | ⟨haj, hai, hwa⟩ | ⟨haj, hai, ha2⟩
    · subst hwa
      rcases hpa with hpa | hpa
      · rcases hj_cases with h | h <;> rw [h] at hpa <;> cases hpa
      · have hpe : wj.everInvoked = true := hpa
        exact hkey_deps a wj (by rw [haj]; exact hwj) (Or.inr hpe) d hd
    · subst hwa
      rcases hpa with hpa | hpa
      · have hpa2 : (if s.err wj.task = none then Phase.waiting (l1 ++ l2)
            else Phase.sending) = Phase.acqSem := hpa
        by_cases herr0 : s.err wj.task = none
        · rw [if_pos herr0] at hpa2
          cases hpa2
        · rw [if_neg herr0] at hpa2
          cases hpa2
      · have hpe : wi.everInvoked = true := hpa
        rw [hiE] at hpe
        cases hpe
    · exact hkey_deps a wa ha2 hpa d hd
  · -- owner_past
    intro a wa ha hoa hpa
    rcases hlook a wa ha with ⟨haj, hwa⟩ | ⟨haj, hai, hwa⟩ | ⟨haj, hai, ha2⟩
    · subst hwa
      have hoj : wj.owner = true := hoa
      rcases hinv.owner_past j wj hwj hoj hjpend with hv | ⟨e, he⟩
      · exact Or.inl hv
      · refine Or.inr ⟨e, ?_⟩
        show s'.err wj.task = some e
        rw [herr_ne wj.task (Ne.symm htij)]
        exact he
    · subst hwa
      by_cases herr0 : s.err wj.task = none
      · have h0 : wi'.phase = Phase.waiting (l1 ++ l2) := by
          show (if s.err wj.task = none then Phase.waiting (l1 ++ l2)
            else Phase.sending) = _
          rw [if_pos herr0]
        rw [h0] at hpa
        cases hpa
      · obtain ⟨e, he⟩ := Option.ne_none_iff_exists'.mp herr0
        refine Or.inr ⟨e, ?_⟩
        show s'.err wi.task = some e
        rw [herr_self]
        exact he
    · rcases hinv.owner_past a wa ha2 hoa hpa with hv | ⟨e, he⟩
      · exact Or.inl hv
      · refine Or.inr ⟨e, ?_⟩
        have hne : wa.task ≠ wi.task := by
          intro hc
          exact hai (hinv.owner_uniq a i wa wi ha2 hwi hoa hiO hc)
        rw [herr_ne wa.task hne]
        exact he
  · -- failure_src
    intro a wa ha hoa hpa hea e he
    rcases hlook a wa ha with ⟨haj, hwa⟩ | ⟨haj, hai, hwa⟩ | ⟨haj, hai, ha2⟩
    · subst hwa
      have hoj : wj.owner = true := hoa
      have hej : wj.everInvoked = false := hea
      have he2 : s.err wj.task = some e := by
        rw [← herr_ne wj.task (Ne.symm htij)]
        exact he
      obtain ⟨d, hd1, hd2, hd3, hd4⟩ :=
        hinv.failure_src j wj hwj hoj hjpend hej e he2
      refine ⟨d, hd1, hd2, ?_, hfin _ hd4⟩
      rw [herr_ne d (hne_fin d hd4)]
      exact hd3
    · subst hwa
      by_cases herr0 : s.err wj.task = none
      · have h0 : wi'.phase = Phase.waiting (l1 ++ l2) := by
          show (if s.err wj.task = none then Phase.waiting (l1 ++ l2)
            else Phase.sending) = _
          rw [if_pos herr0]
        rw [h0] at hpa
        cases hpa
      · have he2 : s.err wj.task = some e := by
          rw [← herr_self]
          exact he
        refine ⟨wj.task, hdepj, hjdone, ?_, hfinj⟩
        rw [herr_ne wj.task (Ne.symm htij)]
        exact he2
    · have hne : wa.task ≠ wi.task := by
        intro hc
        exact hai (hinv.owner_uniq a i wa wi ha2 hwi hoa hiO hc)
      have he2 : s.err wa.task = some e := by
        rw [← herr_ne wa.task hne]
        exact he
      obtain ⟨d, hd1, hd2, hd3, hd4⟩ :=
        hinv.failure_src a wa ha2 hoa hpa hea e he2
      refine ⟨d, hd1, hd2, ?_, hfin _ hd4⟩
      rw [herr_ne d (hne_fin d hd4)]
      exact hd3
  · -- done_owner
    intro tx htx
    obtain ⟨a, wa0, ha, hta, hoa⟩ := hinv.done_owner tx htx
    obtain ⟨wa, h1, h2, h3, h4⟩ := hfwd a wa0 ha
    exact ⟨a, wa, h1, h2.trans hta, h4.trans hoa⟩

/-- Every reachable state of the executor satisfies the inductive invariant. -/
theorem reach_inv (C : Cfg) (s : Sys) (h : Reach C s) : ExecInv C s := by
  induction h with
  | init => exact init_inv C
  | step s1 s2 hr hs ih =>
    cases hs with
    | claim_owner i w hw hph hfree hdone =>
      exact inv_claim_owner C s1 i w hw hph hfree hdone ih
    | claim_done i w hw hph hfree hdone =>
      exact inv_claim_done C s1 i w hw hph hfree hdone ih
    | recv i wi j wj l1 l2 hwi hph hwj hsend =>
      exact inv_recv C s1 i wi j wj l1 l2 hwi hph hwj hsend ih
    | recv_root j wj hwj hpar hsend =>
      exact inv_recv_root C s1 j wj hwj hpar hsend ih
    | deps_ok i w hw hph => exact inv_deps_ok C s1 i w hw hph ih
    | acquire i w hw hph hcap => exact inv_acquire C s1 i w hw hph hcap ih
    | finish_body i w hw hph => exact inv_finish_body C s1 i w hw hph ih
    | signal i w hw hph => exact inv_signal C s1 i w hw hph ih
    | unlock i w hw hph => exact inv_unlock C s1 i w hw hph ih

/-- Transitive dependency in the registered graph. -/
inductive TransDep (C : Cfg) : String → String → Prop where
  | direct (t d : String) (h : d ∈ C.deps t) : TransDep C t d
  | step (t m d : String) (h : m ∈ C.deps t) (h2 : TransDep C m d) : TransDep C t d

/-- A finalized successful task saw all its direct dependencies finalized and
successful (its owning goroutine invoked the body, which required them). -/
theorem final_deps_ok (C : Cfg) (s : Sys) (hinv : ExecInv C s) (d : String)
    (hdone : s.done d = true) (hnone : s.err d = none)
    (hfin : task_finalized s d) :
    ∀ d2 ∈ C.deps d, s.done d2 = true ∧ s.err d2 = none ∧
      task_finalized s d2 := by
  obtain ⟨a, w, ha, hta, hoa⟩ := hinv.done_owner d hdone
  have hnp : w.phase.isPending = false := hfin a w ha hta
  rcases hinv.owner_past a w ha hoa hnp with hev | ⟨e, he⟩
  · intro d2 hd2
    exact hinv.invoked_deps a w ha (Or.inr hev) d2 (by rw [hta]; exact hd2)
  · rw [hta, hnone] at he
    cases he

/-- If all direct dependencies of `t` are finalized and successful, so is every
transitive dependency of `t`. -/
theorem trans_dep_ok (C : Cfg) (s : Sys) (hinv : ExecInv C s) :
    ∀ t D, TransDep C t D →
    (∀ d ∈ C.deps t, s.done d = true ∧ s.err d = none ∧ task_finalized s d) →
    s.done D = true ∧ s.err D = none ∧ task_finalized s D := by
  intro t D hdep
  induction hdep with
  | direct t d hmem =>
    intro hstart
    exact hstart d hmem
  | step t m d hmem h2 ih =>
    intro hstart
    obtain ⟨h1, h2m, h3⟩ := hstart m hmem
    exact ih (final_deps_ok C s hinv m h1 h2m h3)

theorem filter_length_mono {α : Type _} (p q : α → Bool) :
    ∀ (l : List α), (∀ a, a ∈ l → p a = true → q a = true) →
      (l.filter p).length ≤ (l.filter q).length := by
  intro l
  induction l with
  | nil =>
    intro _
    exact Nat.le_refl 0
  | cons x xs ih =>
    intro h
    have hih := ih (fun a ha hpa => h a (List.mem_cons_of_mem x ha) hpa)
    rw [List.filter_cons, List.filter_cons]
    by_cases hp : p x = true
    · have hq := h x (List.mem_cons_self x xs) hp
      rw [if_pos hp, if_pos hq]
      simpa using hih
    · rw [if_neg hp]
      by_cases hq : q x = true
      · rw [if_pos hq]
        exact le_trans hih (by simp)
      · rw [if_neg hq]
        exact hih

/-- C3: for every registration set (dependency map), every cap, and every run
configuration, in every reachable state of the concurrent executor each task's
body has been invoked zero or one times: the ghost invocation counter of
`runTask`'s body call never exceeds one, no matter how many dependents share the
task or how many goroutines are dispatched for it. -/
theorem c3_body_invoked_at_most_once (C : Cfg) (s : Sys) (t : String)
    (h : Reach C s) : s.invoked t ≤ 1 :=
  (reach_inv C s h).invoked_le t

/-- C5: a task body begins execution only after every direct dependency has
completed with success: in every reachable state, if a goroutine is executing
its body (or ever did), then every direct dependency of its task is done with a
success result recorded. -/
theorem c5_deps_complete_before_body (C : Cfg) (s : Sys) (a : Nat) (w : Worker)
    (h : Reach C s) (hw : s.ws.get? a = some w)
    (hrun : w.phase = .inBody ∨ w.everInvoked = true) :
    ∀ d ∈ C.deps w.task, s.done d = true ∧ s.err d = none := by
  have hinv := reach_inv C s h
  intro d hd
  have hpre : w.phase = .acqSem ∨ w.everInvoked = true := by
    rcases hrun with hb | hb
    · exact Or.inr (hinv.body_ever a w hw hb)
    · exact Or.inr hb
  obtain ⟨h1, h2, _⟩ := hinv.invoked_deps a w hw hpre d hd
  exact ⟨h1, h2⟩

/-- C4: fail-fast propagation.  If a transitive dependency `D` of `T` has
recorded a failure in a reachable state, then the body of `T` has never been
invoked; and if `T` has nonetheless been claimed and fully settled, its
recorded result is itself a failure (the propagated error). -/
theorem c4_fail_fast (C : Cfg) (s : Sys) (T D e : String) (h : Reach C s)
    (hdep : TransDep C T D) (hfail : s.err D = some e) :
    s.invoked T = 0 ∧ (s.done T = true → task_finalized s T →
      ∃ e2, s.err T = some e2) := by
  have hinv := reach_inv C s h
  have hnotever : ∀ a w, s.ws.get? a = some w → w.task = T →
      w.everInvoked = false := by
    intro a w ha hta
    by_contra hc
    have hev : w.everInvoked = true := by revert hc; cases w.everInvoked <;> simp
    have hstart := hinv.invoked_deps a w ha (Or.inr hev)
    rw [hta] at hstart
    obtain ⟨_, h2, _⟩ := trans_dep_ok C s hinv T D hdep hstart
    rw [hfail] at h2
    cases h2
  constructor
  · exact hinv.invoked_zero T hnotever
  · intro hdoneT hfinT
    obtain ⟨a, w, ha, hta, hoa⟩ := hinv.done_owner T hdoneT
    have hnp : w.phase.isPending = false := hfinT a w ha hta
    rcases hinv.owner_past a w ha hoa hnp with hev | ⟨e2, he2⟩
    · have := hnotever a w ha hta
      rw [hev] at this
      cases this
    · exact ⟨e2, by rw [← hta]; exact he2⟩

/-- C6: bounded parallelism.  With a finite cap `k` at most `k` goroutines are
inside a body at any reachable instant; a permit is never held while waiting on
dependencies or blocked on the semaphore; and with the nil semaphore (cap −1)
the semaphore acquisition is always enabled. -/
theorem c6_bounded_parallelism (C : Cfg) (s : Sys) (h : Reach C s) :
    (∀ k, C.cap = some k →
      (s.ws.filter (fun w => w.phase == Phase.inBody)).length ≤ k) ∧
    (∀ i w, s.ws.get? i = some w → w.hasPermit = true →
      (∀ p, w.phase ≠ .waiting p) ∧ w.phase ≠ .acqSem) ∧
    (C.cap = none → ∀ i w, s.ws.get? i = some w → w.phase = .acqSem →
      ∃ s2, Step C s s2) := by
  have hinv := reach_inv C s h
  refine ⟨?_, ?_, ?_⟩
  · intro k hk
    have hmono := filter_length_mono (fun w => w.phase == Phase.inBody)
      (fun w => w.hasPermit) s.ws ?_
    · have hcap := hinv.sem_cap k hk
      unfold permits at hcap
      omega
    · intro w hwmem hpb
      have hpb2 : w.phase = Phase.inBody := by simpa using hpb
      obtain ⟨n, hn⟩ := List.get?_of_mem hwmem
      exact hinv.phase_permit n w hn (Or.inl hpb2)
  · intro i w hw hp
    have hne : ∀ ph, (ph = Phase.inBody ∨ ph = Phase.sending ∨
        ph = Phase.signaling) →
        (∀ p, ph ≠ Phase.waiting p) ∧ ph ≠ Phase.acqSem := by
      intro ph hph
      rcases hph with h1 | h1 | h1 <;> rw [h1] <;>
        exact ⟨fun p hc => (nomatch hc), fun hc => (nomatch hc)⟩
    exact hne w.phase (hinv.permit_phase i w hw hp)
  · intro hcapn i w hw hph
    exact ⟨_, Step.acquire s i w hw hph
      (by intro k hk; rw [hcapn] at hk; cases hk)⟩

/-! ### A concrete run: task `b` depends on task `a`, cap 1, both bodies
succeed.  The trace drives `b`'s goroutine into its body. -/

def cfgB : Cfg :=
  { deps := fun t => if t = "b" then ["a"] else [],
    body := fun _ => none, cap := some 1, roots := ["b"] }

def wB0 : Worker := spawn_worker "b" none
def wA0 : Worker := spawn_worker "a" (some 0)
def wB1 : Worker := { wB0 with phase := .waiting [1], owner := true }
def wA1 : Worker := { wA0 with phase := .waiting [], owner := true }
def wA2 : Worker := { wA1 with phase := .acqSem }
def wA3 : Worker :=
  { wA2 with
    phase := .inBody
    hasPermit := true
    everInvoked := true }
def wA4 : Worker := { wA3 with phase := .sending }
def wA5 : Worker := { wA4 with phase := .signaling }
def wA6 : Worker := { wA5 with phase := .unlocking, hasPermit := false }
def wB2 : Worker := { wB1 with phase := .waiting [], recvd := [("a", none)] }
def wB3 : Worker := { wB2 with phase := .acqSem }
def wB4 : Worker :=
  { wB3 with
    phase := .inBody
    hasPermit := true
    everInvoked := true }

def sB0 : Sys := init_sys cfgB
def sB1 : Sys := { sB0 with done := set_done sB0.done "b", ws := [wB1, wA0] }
def sB2 : Sys := { sB1 with done := set_done sB1.done "a", ws := [wB1, wA1] }
def sB3 : Sys := { sB2 with ws := [wB1, wA2] }
def sB4 : Sys := { sB3 with invoked := bump sB3.invoked "a", ws := [wB1, wA3] }
def sB5 : Sys := { sB4 with err := set_err sB4.err "a" none, ws := [wB1, wA4] }
def sB6 : Sys := { sB5 with err := set_err sB5.err "b" none, ws := [wB2, wA5] }
def sB7 : Sys := { sB6 with ws := [wB2, wA6] }
def sB8 : Sys := { sB7 with ws := [wB3, wA6] }
def sB9 : Sys := { sB8 with invoked := bump sB8.invoked "b", ws := [wB4, wA6] }

theorem reachB : Reach cfgB sB9 := by
  have r0 : Reach cfgB sB0 := Reach.init
  have h1 : Step cfgB sB0 sB1 := by
    refine Step.claim_owner sB0 0 wB0 rfl rfl ?_ rfl
    intro j wj hj ht hne
    cases j with
    | zero => exact absurd rfl hne
    | succ n => exact Option.noConfusion hj
  have h2 : Step cfgB sB1 sB2 := by
    refine Step.claim_owner sB1 1 wA0 rfl rfl ?_ rfl
    intro j wj hj ht hne
    cases j with
    | zero =>
      have hww : wB1 = wj := Option.some.inj hj
      rw [← hww] at ht
      exact absurd ht (by decide)
    | succ n =>
      cases n with
      | zero => exact absurd rfl hne
      | succ m => exact Option.noConfusion hj
  have h3 : Step cfgB sB2 sB3 := Step.deps_ok sB2 1 wA1 rfl rfl
  have h4 : Step cfgB sB3 sB4 :=
    Step.acquire sB3 1 wA2 rfl rfl (by
      intro k hk
      have hone : (1 : Nat) = k := Option.some.inj hk
      rw [← hone]
      decide)
  have h5 : Step cfgB sB4 sB5 := Step.finish_body sB4 1 wA3 rfl rfl
  have h6 : Step cfgB sB5 sB6 :=
    Step.recv sB5 0 wB1 1 wA4 [] [] rfl rfl rfl rfl
  have h7 : Step cfgB sB6 sB7 := Step.signal sB6 1 wA5 rfl rfl
  have h8 : Step cfgB sB7 sB8 := Step.deps_ok sB7 0 wB2 rfl rfl
  have h9 : Step cfgB sB8 sB9 :=
    Step.acquire sB8 0 wB3 rfl rfl (by
      intro k hk
      have hone : (1 : Nat) = k := Option.some.inj hk
      rw [← hone]
      decide)
  exact Reach.step _ _ (Reach.step _ _ (Reach.step _ _ (Reach.step _ _
    (Reach.step _ _ (Reach.step _ _ (Reach.step _ _ (Reach.step _ _
      (Reach.step _ _ r0 h1) h2) h3) h4) h5) h6) h7) h8) h9

/-! ### A concrete run with a failing dependency: `b` depends on `a`, whose
body fails with "boom"; nil semaphore (cap −1). -/

def cfgF : Cfg :=
  { deps := fun t => if t = "b" then ["a"] else [],
    body := fun t => if t = "a" then some "boom" else none,
    cap := none, roots := ["b"] }

def wB2F : Worker := { wB1 with phase := .sending, recvd := [("a", some "boom")] }

def sF0 : Sys := init_sys cfgF
def sF1 : Sys := { sF0 with done := set_done sF0.done "b", ws := [wB1, wA0] }
def sF2 : Sys := { sF1 with done := set_done sF1.done "a", ws := [wB1, wA1] }
def sF3 : Sys := { sF2 with ws := [wB1, wA2] }
def sF4 : Sys := { sF3 with invoked := bump sF3.invoked "a", ws := [wB1, wA3] }
def sF5 : Sys :=
  { sF4 with err := set_err sF4.err "a" (some "boom"), ws := [wB1, wA4] }
def sF6 : Sys :=
  { sF5 with err := set_err sF5.err "b" (some "boom"), ws := [wB2F, wA5] }

theorem reachF : Reach cfgF sF6 := by
  have r0 : Reach cfgF sF0 := Reach.init
  have h1 : Step cfgF sF0 sF1 := by
    refine Step.claim_owner sF0 0 wB0 rfl rfl ?_ rfl
    intro j wj hj ht hne
    cases j with
    | zero => exact absurd rfl hne
    | succ n => exact Option.noConfusion hj
  have h2 : Step cfgF sF1 sF2 := by
    refine Step.claim_owner sF1 1 wA0 rfl rfl ?_ rfl
    intro j wj hj ht hne
    cases j with
    | zero =>
      have hww : wB1 = wj := Option.some.inj hj
      rw [← hww] at ht
      exact absurd ht (by decide)
    | succ n =>
      cases n with
      | zero => exact absurd rfl hne
      | succ m => exact Option.noConfusion hj
  have h3 : Step cfgF sF2 sF3 := Step.deps_ok sF2 1 wA1 rfl rfl
  have h4 : Step cfgF sF3 sF4 :=
    Step.acquire sF3 1 wA2 rfl rfl (by intro k hk; exact Option.noConfusion hk)
  have h5 : Step cfgF sF4 sF5 := Step.finish_body sF4 1 wA3 rfl rfl
  have h6 : Step cfgF sF5 sF6 :=
    Step.recv sF5 0 wB1 1 wA4 [] [] rfl rfl rfl rfl
  exact Reach.step _ _ (Reach.step _ _ (Reach.step _ _ (Reach.step _ _
    (Reach.step _ _ (Reach.step _ _ r0 h1) h2) h3) h4) h5) h6

theorem c3_witness : sB9.invoked "a" ≤ 1 :=
  c3_body_invoked_at_most_once cfgB sB9 "a" reachB

theorem c5_witness : sB9.done "a" = true ∧ sB9.err "a" = none := by
  have h := c5_deps_complete_before_body cfgB sB9 0 wB4 reachB rfl (Or.inl rfl)
  exact h "a" (by decide)

theorem c6_witness :
    (sB9.ws.filter (fun w => w.phase == Phase.inBody)).length ≤ 1 :=
  (c6_bounded_parallelism cfgB sB9 reachB).1 1 rfl

theorem c4_witness : sF6.invoked "b" = 0 ∧ ∃ e2, sF6.err "b" = some e2 := by
  have h := c4_fail_fast cfgF sF6 "b" "a" "boom" reachF
    (TransDep.direct "b" "a" (by decide)) (by decide)
  refine ⟨h.1, h.2 (by decide) ?_⟩
  intro a w ha ht
  cases a with
  | zero =>
    have hww : wB2F = w := Option.some.inj ha
    rw [← hww]
    rfl
  | succ n =>
    cases n with
    | zero =>
      have hww : wA5 = w := Option.some.inj ha
      rw [← hww] at ht
      exact absurd ht (by decide)
    | succ m => exact Option.noConfusion ha
